import Mathlib

/-!
Verification development for the language-detection engine of the
iptv-constants repository (src/helpers/websearch-language-detection.js).

The JavaScript module is shallowly embedded below.  Strings are modelled by
Lean `String`/`List Char`; JS numbers that carry fractional weights and
confidences are modelled by `ℚ`; JS `null`/`undefined` is `Option`.  The two
external libraries the module calls are modelled as inputs:
  - `franc` (statistical language classifier) is an oracle parameter
    `francO : String → String` returning an ISO 639-3 code (or "und");
  - `cheerio` / `html-to-text` (HTML parsing and text extraction) are
    modelled by an `HtmlDoc` record carrying exactly the fields the module
    extracts from a document (title, meta tags, resource URLs, visible body
    text).
All decision logic of the module itself is translated directly from the
source.
-/

set_option maxRecDepth 10000

/-- ASCII whitespace, modelling the characters of the JS `\s` class that can
occur in the data handled here (space, tab, newline, carriage return,
vertical tab, form feed). -/
def isWs (c : Char) : Bool :=
  c.toNat = 32 || c.toNat = 9 || c.toNat = 10 || c.toNat = 13 || c.toNat = 11 ||
    c.toNat = 12

/-- Lowercase ASCII letter test, the `[a-z]` character class. -/
def lcAlpha (c : Char) : Bool := decide (97 ≤ c.toNat) && decide (c.toNat ≤ 122)

/-- Uppercase ASCII letter test, the `[A-Z]` character class. -/
def ucAlpha (c : Char) : Bool := decide (65 ≤ c.toNat) && decide (c.toNat ≤ 90)

/-- ASCII letter test, the `[a-zA-Z]` character class. -/
def isAlphaCh (c : Char) : Bool := lcAlpha c || ucAlpha c

/-- ASCII digit test, the `[0-9]` character class. -/
def isDigitCh (c : Char) : Bool := decide (48 ≤ c.toNat) && decide (c.toNat ≤ 57)

/-- Alphanumeric test, the `[a-zA-Z0-9]` character class. -/
def isAlnumCh (c : Char) : Bool := isAlphaCh c || isDigitCh c

/-- Word character as used by the JS `\b` word boundary (`[A-Za-z0-9_]`). -/
def isWordCh (c : Char) : Bool := isAlnumCh c || c = '_'

/-- ASCII lower-casing of one character, modelling JS `toLowerCase` on the
ASCII inputs that occur here. -/
def jsLowerChar (c : Char) : Char :=
  if 65 ≤ c.toNat ∧ c.toNat ≤ 90 then Char.ofNat (c.toNat + 32) else c

/-- Lower-case a character list, modelling JS `String.prototype.toLowerCase`. -/
def jsLower (cs : List Char) : List Char := cs.map jsLowerChar

/-- Strip leading and trailing whitespace, modelling JS
`String.prototype.trim`. -/
def jsTrim (cs : List Char) : List Char :=
  ((cs.dropWhile isWs).reverse.dropWhile isWs).reverse

/-- Collapse every whitespace run to a single space, modelling the JS
`text.replace` of whitespace runs by one space character. -/
def squeezeWs : List Char → Bool → List Char
  | [], _ => []
  | c :: cs, prevWs =>
    if isWs c then
      (if prevWs then [] else [' ']) ++ squeezeWs cs true
    else
      c :: squeezeWs cs false

/-- One weighted language signal, the `{source, value, weight}` object
literals pushed by the metadata analyzer und the HTML resolver. -/
structure Signal where
  source : String
  value : String
  weight : ℚ
deriving DecidableEq, Repr

/-- Result of one text analysis, the `{language, confidence, method}` object
returned by `analyzeTextLanguage` and `detectLanguageFromBodyText`. -/
structure DetectionResult where
  language : Option String
  confidence : ℚ
  method : String
deriving DecidableEq, Repr

/-- The LANGUAGE_CODES table of the module: full language name to ISO 639-1
code (with the `unknown` sentinel mapped to itself). -/
def LANGUAGE_CODES : List (String × String) :=
  [("tamil", "ta"), ("telugu", "te"), ("hindi", "hi"), ("kannada", "kn"),
   ("malayalam", "ml"), ("english", "en"), ("bengali", "bn"), ("marathi", "mr"),
   ("punjabi", "pa"), ("gujarati", "gu"), ("urdu", "ur"), ("bhojpuri", "bh"),
   ("assamese", "as"), ("odia", "or"), ("unknown", "unknown")]

/-- Association-list lookup, modelling JS object property access on the
string-keyed literal tables of the module (keys are inserted once, so the
first match is the only match). -/
def lookupAssoc {α : Type} (tbl : List (String × α)) (k : String) : Option α :=
  (tbl.find? (fun p => p.1 = k)).map (fun p => p.2)

/-- The full-name table used by `normalizeLanguageCode` (its `langMap`
literal; note it has `bangla`/`oriya` aliases and no `bhojpuri` entry). -/
def normalizeLangMap : List (String × String) :=
  [("tamil", "ta"), ("telugu", "te"), ("hindi", "hi"), ("kannada", "kn"),
   ("malayalam", "ml"), ("english", "en"), ("bengali", "bn"), ("bangla", "bn"),
   ("marathi", "mr"), ("punjabi", "pa"), ("gujarati", "gu"), ("urdu", "ur"),
   ("assamese", "as"), ("odia", "or"), ("oriya", "or")]

/-- Test for the `^[a-z]{2}$` regular expression: exactly two lowercase
letters. -/
def twoLower : List Char → Bool
  | [c1, c2] => lcAlpha c1 && lcAlpha c2
  | _ => false

/-- Test for the `^([a-z]{2})[-_]` regular expression: two lowercase letters
followed by a locale separator. -/
def localeTwo : List Char → Bool
  | c1 :: c2 :: c3 :: _ => lcAlpha c1 && lcAlpha c2 && (c3 = '-' || c3 = '_')
  | _ => false

/-- Translation of `normalizeLanguageCode(value)`: lower-case and trim the
value, accept a bare two-letter code, else strip a locale suffix, else map a
known full language name; otherwise null.  The JS guard for null/non-string
input is the empty-string case of the `value` string here (callers pass
strings). -/
def normalizeLanguageCode (value : String) : Option String :=
  if value = "" then none
  else
    let normalized := jsTrim (jsLower value.data)
    if twoLower normalized then some (String.mk normalized)
    else if localeTwo normalized then some (String.mk (normalized.take 2))
    else lookupAssoc normalizeLangMap (String.mk normalized)

/-- One `forEach` step of `aggregateLanguageSignals`: `scores[langCode] =
(scores[langCode] || 0) + signal.weight`, on an insertion-ordered
association list (JS objects enumerate string keys in insertion order). -/
def bumpScore : List (String × ℚ) → String → ℚ → List (String × ℚ)
  | [], c, w => [(c, w)]
  | (k, v) :: rest, c, w =>
    if k = c then (k, v + w) :: rest else (k, v) :: bumpScore rest c w

/-- Accumulate one signal into the score table (signals whose value fails to
normalize are skipped). -/
def addSignal (acc : List (String × ℚ)) (s : Signal) : List (String × ℚ) :=
  match normalizeLanguageCode s.value with
  | none => acc
  | some c => bumpScore acc c s.weight

/-- Head of `entries.sort((a, b) => b[1] - a[1])`: JS `sort` is stable, so
the head of the descending-sorted entry list is the first entry whose score
is strictly greater than every earlier score and at least every later score.
This fold computes exactly that entry. -/
def pickTop (e : String × ℚ) (rest : List (String × ℚ)) : String × ℚ :=
  rest.foldl (fun best x => if best.2 < x.2 then x else best) e

/-- Translation of `aggregateLanguageSignals(signals)`. -/
def aggregateLanguageSignals (signals : List Signal) : Option String :=
  if signals = [] then none
  else
    let scores := signals.foldl addSignal []
    match scores with
    | [] => none
    | e :: rest => some (pickTop e rest).1

/-- Label character of the first hostname label: `[a-zA-Z0-9-]`. -/
def isLabelCh (c : Char) : Bool := isAlnumCh c || c = '-'

/-- The first-label group `[a-zA-Z0-9]([a-zA-Z0-9-]*[a-zA-Z0-9])?` of the
domain regex, applied to the maximal label-character run: nonempty, first
and last characters alphanumeric, all characters label characters. -/
def firstLabelOK (l : List Char) : Bool :=
  match l with
  | [] => false
  | c :: _ =>
    isAlnumCh c && l.all isLabelCh &&
      (match l.getLast? with
       | some d => isAlnumCh d
       | none => false)

/-- Scanner for the inside of the trailing group `(\.[a-zA-Z]{2,})+$` of the
domain regex: `seen` counts the letters of the current label; a dot or the
end of the string closes the current label, which must have at least two
letters; any other non-letter character rejects. -/
def tldRun : List Char → ℕ → Bool
  | [], seen => decide (2 ≤ seen)
  | c :: cs, seen =>
    if c = '.' then decide (2 ≤ seen) && tldRun cs 0
    else if isAlphaCh c then tldRun cs (seen + 1)
    else false

/-- The trailing group `(\.[a-zA-Z]{2,})+$` of the domain regex: one or more
dot-prefixed purely alphabetic labels of length at least two, ending the
string.  Each `[a-zA-Z]{2,}` must consume the whole alphabetic run after its
dot, since the following regex character is either a dot or the end. -/
def tldGroups : List Char → Bool
  | '.' :: cs => tldRun cs 0
  | _ => false

/-- Full-match test for the domain-validation regex
`^[a-zA-Z0-9]([a-zA-Z0-9-]*[a-zA-Z0-9])?(\.[a-zA-Z]{2,})+$`.  The first
group cannot contain a dot and the dot groups cannot contain label
characters other than letters, so a full match splits the string into the
maximal leading label-character run and the remaining dot groups. -/
def validDomainCandidate (cs : List Char) : Bool :=
  firstLabelOK (cs.takeWhile isLabelCh) && tldGroups (cs.dropWhile isLabelCh)

/-- The candidate domain of `extractDomain`: the text before the first `@`
(`split('@')[0]`, the whole string when no `@` occurs since `split` then
returns the single-element array), trimmed. -/
def candidateOf (s : String) : List Char :=
  jsTrim (s.data.takeWhile (fun c => c ≠ '@'))

/-- Translation of `extractDomain(tvgId)`: `none` models a null or
non-string `tvgId` (and the empty string is falsy in the JS guard); the
candidate is returned exactly when it is truthy (nonempty) and passes the
domain regex. -/
def extractDomain (tvgId : Option String) : Option String :=
  match tvgId with
  | none => none
  | some s =>
    if s = "" then none
    else
      let domain := candidateOf s
      if domain ≠ [] && validDomainCandidate domain then some (String.mk domain)
      else none

/-- Substring containment: `w` occurs contiguously in the scanned list. -/
def hasSubst (w : List Char) : List Char → Bool
  | [] => w.isEmpty
  | c :: cs => w.isPrefixOf (c :: cs) || hasSubst w cs

/-- Containment of a word list: true when some word occurs as a substring
(a regex alternation of plain-text alternatives under `.test`). -/
def anyInfixIn (ws : List String) (cs : List Char) : Bool :=
  ws.any (fun w => hasSubst w.data cs)

/-- Check that an occurrence of each word exists, in order, with arbitrary
text between them: the `w1.*w2.*…` regex shape.  `afterOccur w p cs` holds
when some occurrence of `w` in `cs` is followed by a suffix satisfying
`p`. -/
def afterOccur (w : List Char) (p : List Char → Bool) : List Char → Bool
  | [] => false
  | c :: cs => (w.isPrefixOf (c :: cs) && p ((c :: cs).drop w.length)) || afterOccur w p cs

/-- The `w1.*w2.*…` regex shape over a list of plain words. -/
def seqMatch : List String → List Char → Bool
  | [], _ => true
  | w :: ws, cs => afterOccur w.data (seqMatch ws) cs

/-- Word boundary after a match: the next character, if any, is not a word
character (the JS `\b` at the end of a word). -/
def boundaryNext : List Char → Bool
  | [] => true
  | c :: _ => !isWordCh c

/-- One whole word occurs: an occurrence of `w` preceded by the start of the
string or a non-word character and followed by a non-word character or the
end (the JS `\bw\b`).  The scanner carries whether the previous character
was a word character. -/
def containsWordAux (w : List Char) : List Char → Bool → Bool
  | [], _ => false
  | c :: cs, prevW =>
    (!prevW && w.isPrefixOf (c :: cs) && boundaryNext ((c :: cs).drop w.length)) ||
      containsWordAux w cs (isWordCh c)

/-- Whole-word containment of `w` in `cs`. -/
def containsWord (w : String) (cs : List Char) : Bool :=
  containsWordAux w.data cs false

/-- FRANC_TO_LANGUAGE_NAME: ISO 639-3 codes of the franc classifier to the
module's full language names (`und` maps to null). -/
def FRANC_TO_LANGUAGE_NAME : List (String × Option String) :=
  [("tam", some "tamil"), ("tel", some "telugu"), ("hin", some "hindi"),
   ("kan", some "kannada"), ("mal", some "malayalam"), ("eng", some "english"),
   ("ben", some "bengali"), ("mar", some "marathi"), ("pan", some "punjabi"),
   ("guj", some "gujarati"), ("urd", some "urdu"), ("asm", some "assamese"),
   ("ori", some "odia"), ("bho", some "bhojpuri"), ("und", none)]

/-- Character range test on code points, for the Unicode script counters. -/
def inRange (lo hi : ℕ) (c : Char) : Bool :=
  decide (lo ≤ c.toNat) && decide (c.toNat ≤ hi)

/-- The `scripts` counters of `analyzeTextLanguage`, in the insertion order
of the object literal; each counts the sample's characters in one Unicode
block (`latin` counts ASCII letters). -/
def scriptCounts (sample : List Char) : List (String × ℕ) :=
  [("tamil", (sample.filter (inRange 0x0B80 0x0BFF)).length),
   ("telugu", (sample.filter (inRange 0x0C00 0x0C7F)).length),
   ("kannada", (sample.filter (inRange 0x0C80 0x0CFF)).length),
   ("malayalam", (sample.filter (inRange 0x0D00 0x0D7F)).length),
   ("devanagari", (sample.filter (inRange 0x0900 0x097F)).length),
   ("bengali", (sample.filter (inRange 0x0980 0x09FF)).length),
   ("gujarati", (sample.filter (inRange 0x0A80 0x0AFF)).length),
   ("punjabi", (sample.filter (inRange 0x0A00 0x0A7F)).length),
   ("latin", (sample.filter isAlphaCh).length)]

/-- The `reduce` picking the winning script: starts from `{script: null,
count: 0}` and replaces only on a strictly greater count, so the first
maximal script wins. -/
def maxScriptOf (sample : List Char) : Option String × ℕ :=
  (scriptCounts sample).foldl
    (fun best p => if best.2 < p.2 then (some p.1, p.2) else best)
    (none, 0)

/-- The `scriptMap` literal of `analyzeTextLanguage` (both occurrences are
identical): script name to language name. -/
def scriptMap : List (String × String) :=
  [("tamil", "tamil"), ("telugu", "telugu"), ("kannada", "kannada"),
   ("malayalam", "malayalam"), ("bengali", "bengali"), ("gujarati", "gujarati"),
   ("punjabi", "punjabi"), ("devanagari", "hindi"), ("latin", "english")]

/-- The cleaned text of `analyzeTextLanguage`:
`text.replace` of whitespace runs by a space, then `trim`. -/
def cleanOf (text : String) : List Char :=
  jsTrim (squeezeWs text.data false)

/-- The analysis sample: first 5000 characters of the cleaned text
(`substring(0, 5000)`). -/
def sampleOf (text : String) : List Char :=
  (cleanOf text).take 5000

/-- The winning script's share of the sample (`scriptRatio =
maxScript.count / totalChars`); division by zero yields 0 in `ℚ`, and the
branch using the share is unreachable for an empty sample. -/
def winShare (text : String) : ℚ :=
  ((maxScriptOf (sampleOf text)).2 : ℚ) / ((sampleOf text).length : ℚ)

/-- Test that an optional language is present and is not `english` (the
`language && language !== 'english'` guards). -/
def langNonEnglish (o : Option String) : Bool :=
  match o with
  | some lg => lg ≠ "english"
  | none => false

/-- Translation of `analyzeTextLanguage(text)`.  The external `franc`
statistical classifier is the oracle `francO`, applied to the full cleaned
text and returning an ISO 639-3 code. -/
def analyzeTextLanguage (text : String) (francO : String → String) : DetectionResult :=
  let cleanText := cleanOf text
  if cleanText.length < 50 then ⟨none, 0, "insufficient-text"⟩
  else
    let sample := cleanText.take 5000
    let maxScript := maxScriptOf sample
    let scriptShare : ℚ := (maxScript.2 : ℚ) / (sample.length : ℚ)
    let scriptLang := maxScript.1.bind (lookupAssoc scriptMap)
    if 50 < maxScript.2 ∧ (1 : ℚ)/20 < scriptShare ∧
        langNonEnglish scriptLang = true then
      ⟨scriptLang, min ((19 : ℚ)/20) (scriptShare * 10), "script-detection"⟩
    else
      let francLang : Option String :=
        if 100 ≤ cleanText.length then
          (lookupAssoc FRANC_TO_LANGUAGE_NAME (francO (String.mk cleanText))).join
        else none
      if 100 ≤ cleanText.length ∧ langNonEnglish francLang = true then
        ⟨francLang, (7 : ℚ)/10, "franc-statistical"⟩
      else if 100 ≤ cleanText.length ∧ francLang = some "english" ∧
          (3 : ℚ)/10 < scriptShare ∧ maxScript.1 = some "latin" then
        ⟨some "english", (6 : ℚ)/10, "franc-english"⟩
      else if 20 < maxScript.2 ∧ scriptLang.isSome = true then
        ⟨scriptLang, (4 : ℚ)/10, "script-fallback"⟩
      else ⟨none, 0, "undetermined"⟩

/-- The per-language mention tables of `detectLanguageFromDescription`: each
entry is `\b(names)\s+(keywords)\b`, in the object's insertion order. -/
def mentionTable : List (String × List String) :=
  [("tamil", ["tamil", "tamizh"]), ("telugu", ["telugu"]), ("hindi", ["hindi"]),
   ("kannada", ["kannada"]), ("malayalam", ["malayalam"]),
   ("bengali", ["bengali", "bangla"]), ("marathi", ["marathi"]),
   ("gujarati", ["gujarati"]), ("punjabi", ["punjabi"])]

/-- The keyword alternation of every mention pattern. -/
def mentionKeywords : List String :=
  ["language", "channel", "tv", "music", "news", "cinema", "movies", "satellite"]

/-- Match of `name \s+ keyword \b` at the start of `cs` for one of the given
names: the keywords start with letters, so the `\s+` consumes the whole
whitespace run. -/
def mentionHereFor (names : List String) (cs : List Char) : Bool :=
  names.any fun nm =>
    nm.data.isPrefixOf cs &&
      (match cs.drop nm.data.length with
       | c :: rest =>
         isWs c &&
           (let rest2 := rest.dropWhile isWs
            mentionKeywords.any fun kw =>
              kw.data.isPrefixOf rest2 && boundaryNext (rest2.drop kw.data.length))
       | [] => false)

/-- Scanner for one mention pattern `\b(names)\s+(keywords)\b`: tries every
position whose previous character is not a word character (names start with
letters, so the leading `\b` is exactly that condition). -/
def mentionScan (names : List String) : List Char → Bool → Bool
  | [], _ => false
  | c :: cs, prevW =>
    (!prevW && mentionHereFor names (c :: cs)) || mentionScan names cs (isWordCh c)

/-- Translation of `detectLanguageFromDescription(description)`: the falsy
guard is the empty string here; the text is lower-cased and the mention
patterns are tried in table order. -/
def detectLanguageFromDescription (description : String) : Option String :=
  if description = "" then none
  else
    let text := jsLower description.data
    (mentionTable.find? (fun p => mentionScan p.2 text false)).map (fun p => p.1)

/-- The per-code alternations of `detectLanguageFromResources`, with
`xx[-_]in` expanded to its two alternatives; matching is case-insensitive,
so the input is lower-cased before the substring tests. -/
def resourceTable : List (String × List String) :=
  [("ta", ["tamil", "ta-in", "ta_in"]), ("te", ["telugu", "te-in", "te_in"]),
   ("hi", ["hindi", "hi-in", "hi_in"]), ("kn", ["kannada", "kn-in", "kn_in"]),
   ("ml", ["malayalam", "ml-in", "ml_in"]),
   ("bn", ["bengali", "bangla", "bn-in", "bn_in"]),
   ("mr", ["marathi", "mr-in", "mr_in"]), ("gu", ["gujarati", "gu-in", "gu_in"]),
   ("pa", ["punjabi", "pa-in", "pa_in"]),
   ("en", ["en-us", "en_us", "en-gb", "en_gb", "english"])]

/-- Translation of `detectLanguageFromResources(resources)`. -/
def detectLanguageFromResources (resources : String) : Option String :=
  let lower := jsLower resources.data
  (resourceTable.find? (fun p => anyInfixIn p.2 lower)).map (fun p => p.1)

/-- Model of an HTML document as the fields the module extracts from it with
cheerio and html-to-text: `none` models an absent element or attribute (the
`|| null` normalisations make absent and empty text equivalent for the
title/description fields); `bodyText` is the visible-text rendering produced
by the html-to-text `convert` call of `detectLanguageFromBodyText`. -/
structure HtmlDoc where
  title : Option String
  description : Option String
  ogTitle : Option String
  ogDescription : Option String
  ogSiteName : Option String
  htmlLang : Option String
  metaContentLanguage : Option String
  ogLocale : Option String
  metaLanguage : Option String
  scriptSrcs : List String
  linkHrefs : List String
  bodyText : String

/-- Result record of `detectLanguageFromMetadata` (the echoed raw metadata
fields are omitted: the module returns them for logging only). -/
structure MetadataResult where
  language : Option String
  confidence : String
  signals : List Signal
deriving DecidableEq, Repr

/-- One optional metadata signal: pushed when the attribute is present and
truthy (a present but empty attribute is falsy in the JS guards). -/
def optSignal (src : String) (v : Option String) (w : ℚ) : List Signal :=
  match v with
  | some t => if t ≠ "" then [⟨src, t, w⟩] else []
  | none => []

/-- Translation of `detectLanguageFromMetadata(html)` over the extracted
document fields: description hint, html lang, content-language, og:locale,
language meta and resource signals are pushed in this order, aggregated, and
the confidence tier is `high` when one of the four structural signals
fired. -/
def detectLanguageFromMetadata (d : HtmlDoc) : MetadataResult :=
  let descriptionText :=
    (d.description.getD "") ++ " " ++ (d.ogDescription.getD "") ++ " " ++ (d.title.getD "")
  let hintSignals :=
    match detectLanguageFromDescription descriptionText with
    | some hint => [Signal.mk "description-hint" hint 9]
    | none => []
  let resources :=
    jsLower ((String.intercalate " " d.scriptSrcs ++ " " ++
      String.intercalate " " d.linkHrefs).data)
  let resourceSignals :=
    match detectLanguageFromResources (String.mk resources) with
    | some code => [Signal.mk "resource-analysis" code 3]
    | none => []
  let signals :=
    hintSignals ++ optSignal "html-lang" d.htmlLang 10 ++
      optSignal "meta-content-language" d.metaContentLanguage 8 ++
      optSignal "og-locale" d.ogLocale 7 ++
      optSignal "meta-language" d.metaLanguage 7 ++ resourceSignals
  let language := aggregateLanguageSignals signals
  let hasStrongSignal := signals.any fun s =>
    s.source ∈ ["html-lang", "meta-content-language", "og-locale", "meta-language"]
  ⟨language, if hasStrongSignal then "high" else "low", signals⟩

/-- Translation of `detectLanguageFromBodyText(html)`: the html-to-text
extraction is the `bodyText` input; an explicit language mention wins with
confidence 0.85, else the text is analyzed statistically. -/
def detectLanguageFromBodyText (bodyText : String) (francO : String → String) :
    DetectionResult :=
  match detectLanguageFromDescription bodyText with
  | some hint => ⟨some hint, (85 : ℚ)/100, "body-language-mention"⟩
  | none => analyzeTextLanguage bodyText francO

/-- The combined signal list of `detectLanguageFromHTML`: every metadata
signal at half weight, then, in default mode, the body-text signal at weight
8 when the body language is the code `en` and 15 otherwise. -/
def combinedSignals (m : MetadataResult) (b : DetectionResult)
    (metadataOnly : Bool) : List Signal :=
  m.signals.map (fun s => ⟨s.source, s.value, s.weight * (1/2 : ℚ)⟩) ++
    (if metadataOnly then []
     else
       match b.language with
       | some l => [Signal.mk "body-text" l (if l = "en" then 8 else 15)]
       | none => [])

/-- The decision logic of `detectLanguageFromHTML` (lines pushing signals,
the conflict-override return, the high-confidence return, the metadata-only
return and the final aggregation), parameterized over the outputs of the two
sub-analyzers. -/
def resolveHTML (m : MetadataResult) (b : DetectionResult)
    (metadataOnly : Bool) : Option String :=
  let signals := combinedSignals m b metadataOnly
  if metadataOnly then m.language
  else
    match b.language with
    | some l =>
      if m.language = some "en" ∧ l ≠ "en" ∧ (1 : ℚ)/2 ≤ b.confidence then some l
      else if (7 : ℚ)/10 ≤ b.confidence then some l
      else aggregateLanguageSignals signals
    | none => aggregateLanguageSignals signals

/-- Translation of `detectLanguageFromHTML(html, options)`: metadata is
extracted and demoted, body text is analyzed, and the conflict rules of
`resolveHTML` decide.  In metadata-only mode the body result is ignored
(the module does not compute it; both analyzers are pure). -/
def detectLanguageFromHTML (d : HtmlDoc) (francO : String → String)
    (metadataOnly : Bool) : Option String :=
  resolveHTML (detectLanguageFromMetadata d)
    (detectLanguageFromBodyText d.bodyText francO) metadataOnly

/-- The `explicitPatterns` table of `detectExplicitLanguageInName`: each
entry is an alternation of whole words, in insertion order. -/
def explicitPatterns : List (String × List String) :=
  [("tamil", ["tamil", "tamizh"]), ("telugu", ["telugu"]), ("kannada", ["kannada"]),
   ("malayalam", ["malayalam"]), ("hindi", ["hindi"]),
   ("bengali", ["bengali", "bangla"]), ("marathi", ["marathi"]),
   ("punjabi", ["punjabi", "punjab"]), ("gujarati", ["gujarati"]),
   ("english", ["english"]), ("urdu", ["urdu"]), ("bhojpuri", ["bhojpuri"])]

/-- Translation of `detectExplicitLanguageInName(channelName)`: lower-case
the name and return the first language of the table one of whose words
occurs whole-word in it. -/
def detectExplicitLanguageInName (channelName : String) : Option String :=
  let name := jsLower channelName.data
  (explicitPatterns.find? (fun p => p.2.any (fun w => containsWord w name))).map
    (fun p => p.1)

/-- The `zee(?!.*tamil|.*telugu|…)` alternative of the hindi brand pattern:
some occurrence of `zee` whose suffix contains none of the regional language
words the negative lookahead excludes. -/
def zeeNoRegional (cs : List Char) : Bool :=
  afterOccur "zee".data
    (fun suffix =>
      !anyInfixIn
        ["tamil", "telugu", "kannada", "malayalam", "bengali", "marathi",
         "punjabi", "gujarati"] suffix)
    cs

/-- The `m\b` alternative inside the `9x.*(?:jalwa|jhakaas|m\b)` branch:
some `m` followed by a non-word character or the end. -/
def mWithBoundary : List Char → Bool
  | [] => false
  | c :: cs => (c = 'm' && boundaryNext cs) || mWithBoundary cs

/-- The `9x.*(?:jalwa|jhakaas|m\b)` alternative of the hindi pattern. -/
def nineXHindi (cs : List Char) : Bool :=
  afterOccur "9x".data
    (fun suffix => anyInfixIn ["jalwa", "jhakaas"] suffix || mWithBoundary suffix) cs

/-- The LANGUAGE_PATTERNS table, in insertion order.  Plain alternatives
become substring tests (with `x ?y` optional-space alternatives expanded),
`a.*b` alternatives become ordered-occurrence tests, and the two non-trivial
hindi alternatives are `zeeNoRegional` and `nineXHindi`. -/
def LANGUAGE_PATTERNS : List (String × (List Char → Bool)) :=
  [("tamil", fun cs =>
      anyInfixIn
        ["tamil", "sun tv", "raj tv", "raj musix", "kalaignar", "vijay",
         "puthiya", "thanthi", "polimer", "news7 tamil", "news 7 tamil",
         "jaya", "vasanth", "makkal", "captain", "aaseervatham", "dd tamil",
         "tamilan"] cs ||
        seqMatch ["blessing", "tamil"] cs || seqMatch ["naaptol", "tamil"] cs ||
        seqMatch ["aastha", "tamil"] cs),
   ("telugu", fun cs =>
      anyInfixIn
        ["telugu", "gemini", "etv", "maa", "10tv", "10 tv", "6tv", "6 tv",
         "4tv", "4 tv", "ntv", "v6", "abn", "sakshi", "tnews", "t news",
         "vanitha", "zee telugu", "star maa"] cs ||
        seqMatch ["aastha", "telugu"] cs),
   ("kannada", fun cs =>
      anyInfixIn
        ["kannada", "udaya", "suvarna", "zee kannada", "colors kannada",
         "kasturi", "dd chandana"] cs ||
        seqMatch ["public", "tv", "kannada"] cs ||
        seqMatch ["raj", "news", "kannada"] cs || seqMatch ["aastha", "kannada"] cs),
   ("malayalam", fun cs =>
      anyInfixIn
        ["malayalam", "asianet", "mazhavil", "surya", "kairali", "manorama",
         "amrita", "jaihind", "mediaone", "media one", "mathrubhumi", "safari",
         "flowers", "kaumudy", "zee keralam", "jeevan"] cs),
   ("hindi", fun cs =>
      anyInfixIn
        ["hindi", "star plus", "sony", "colors", "&tv", "sab tv", "rishtey",
         "dangal", "aaj tak", "abp news", "ndtv", "india tv", "news18",
         "republic", "times now", "india today", "dd india", "dd national",
         "dd bharati", "news24", "news 24", "epic", "big magic", "zing",
         "dd rajasthan", "dd uttar", "dd madhya", "dd bihar", "dd jharkhand",
         "dd delhi", "dhakad", "aastha", "sanskar", "ishara", "manoranjan",
         "music india"] cs ||
        zeeNoRegional cs || nineXHindi cs),
   ("marathi", fun cs =>
      anyInfixIn ["marathi", "zee marathi", "star pravah", "colors marathi",
        "fakt marathi"] cs),
   ("bengali", fun cs =>
      anyInfixIn
        ["bengali", "bangla", "jalsha", "zee bangla", "colors bangla",
         "aakaash", "calcutta", "akd", "ananda"] cs ||
        seqMatch ["amar", "bangla"] cs),
   ("punjabi", fun cs =>
      anyInfixIn ["punjab", "ptc", "mh1", "zee punjabi", "9x tashan"] cs),
   ("gujarati", fun cs =>
      anyInfixIn ["gujarati", "sandesh", "tv9 gujarati", "abp asmita",
        "zee 24 kalak", "colors gujarati"] cs),
   ("urdu", fun cs => anyInfixIn ["urdu", "salaam"] cs),
   ("bhojpuri", fun cs => anyInfixIn ["bhojpuri", "b4u bhojpuri"] cs),
   ("assamese", fun cs =>
      anyInfixIn ["assam", "pratidin", "prag"] cs ||
        seqMatch ["news", "live", "assam"] cs),
   ("odia", fun cs => anyInfixIn ["odia", "oriya", "alankar", "mbc"] cs),
   ("english", fun cs =>
      anyInfixIn
        ["discovery", "national geographic", "nat geo", "animal planet",
         "bbc", "cnn", "fox", "history", "sony pix", "&flix", "&prive",
         "movies now", "romedy", "mtv", "vh1", "comedy central", "nick",
         "cartoon", "pogo", "disney", "hungama", "sony yay", "travel xp",
         "fashion", "food", "tlc", "living", "espn", "star sports",
         "eurosport", "dd sports", "mirror now", "wion", "zoom"] cs ||
        seqMatch ["sony", "sports"] cs)]

/-- Translation of `detectLanguageByPattern(channelName)`: first matching
brand pattern in table order, else the generic broadcast-term default to
hindi, else the `unknown` sentinel. -/
def detectLanguageByPattern (channelName : String) : String :=
  let name := jsLower channelName.data
  match LANGUAGE_PATTERNS.find? (fun p => p.2 name) with
  | some p => p.1
  | none =>
    if anyInfixIn ["tv", "channel", "news", "bharat", "india", "desi"] name then
      "hindi"
    else "unknown"

/-- One cache entry of the domain cache collaborator: stored language and
provenance source (the timestamp the JS cache also stores plays no role in
the detection logic). -/
structure CacheEntry where
  language : String
  source : String
deriving DecidableEq, Repr

/-- The cache collaborator as an insertion-ordered association list keyed by
domain. -/
def Cache : Type := List (String × CacheEntry)

/-- Lookup of `cache.has` / `cache.get`. -/
def cacheFetch (cache : Cache) (d : String) : Option CacheEntry :=
  lookupAssoc cache d

/-- The `cache.set(domain, language, source)` mutation: overwrite the entry
of the domain, or append a fresh one. -/
def cacheStore : Cache → String → String → String → Cache
  | [], d, lang, src => [(d, ⟨lang, src⟩)]
  | (k, e) :: rest, d, lang, src =>
    if k = d then (k, ⟨lang, src⟩) :: rest else (k, e) :: cacheStore rest d lang src

/-- Store only when a domain was extracted (the `if (domain) cache.set(…)`
guards of `detectLanguage`). -/
def cacheStoreIf (cache : Cache) (domain : Option String) (lang src : String) :
    Cache :=
  match domain with
  | some d => cacheStore cache d lang src
  | none => cache

/-- A channel record as read by `detectLanguage`: display name and optional
`tvgId` (`none` models a missing or non-string field). -/
structure Channel where
  name : String
  tvgId : Option String

/-- Observable outcome of one `detectLanguage` call: the returned
`{language, source}`, the cache state after the call, and whether
`fetchWebsite` was invoked (the network suspension point). -/
structure DetectOutcome where
  language : String
  source : String
  cache : Cache
  fetched : Bool

/-- Strategy 3 of `detectLanguage`: pattern fallback, caching under source
`pattern` when a domain exists. -/
def patternFallback (ch : Channel) (cache : Cache) (domain : Option String)
    (fetched : Bool) : DetectOutcome :=
  let patternLang := detectLanguageByPattern ch.name
  ⟨patternLang, "pattern", cacheStoreIf cache domain patternLang "pattern", fetched⟩

/-- Translation of `detectLanguage(channel, cache)`.  The network fetch of
`fetchWebsite` is the oracle `fetch`, returning the parsed document of the
domain or `none` when every URL and retry fails (the thrown error the
orchestrator swallows); `francO` is the franc oracle threaded to the text
analyzer.  The strategies in order: explicit name mention (cached and
returned before anything else), cache hit (returned with a `cached-`
prefixed source), web detection (cached and returned as `web` when the HTML
resolver yields a usable language), pattern fallback. -/
def detectLanguage (ch : Channel) (cache : Cache) (fetch : String → Option HtmlDoc)
    (francO : String → String) : DetectOutcome :=
  let domain := extractDomain ch.tvgId
  match detectExplicitLanguageInName ch.name with
  | some explicitLang =>
    ⟨explicitLang, "name-explicit",
      cacheStoreIf cache domain explicitLang "name-explicit", false⟩
  | none =>
    match domain with
    | some d =>
      match cacheFetch cache d with
      | some cached => ⟨cached.language, "cached-" ++ cached.source, cache, false⟩
      | none =>
        match fetch d with
        | some doc =>
          match detectLanguageFromHTML doc francO false with
          | some detectedLang =>
            if detectedLang ≠ "" ∧ detectedLang ≠ "unknown" then
              ⟨detectedLang, "web", cacheStore cache d detectedLang "web", true⟩
            else patternFallback ch cache domain true
          | none => patternFallback ch cache domain true
        | none => patternFallback ch cache domain true
    | none => patternFallback ch cache domain false

/-- Specification-side join of dot-prefixed labels: `dotJoin [l1, …, ln]`
is `.l1.l2…ln` as a character list. -/
def dotJoin : List (List Char) → List Char
  | [] => []
  | l :: ls => '.' :: (l ++ dotJoin ls)

/-- Declarative reading of the first-label group of the domain regex: a
nonempty run of label characters whose first and last characters are
alphanumeric (hyphens only internal). -/
def firstLabelSpec (l : List Char) : Prop :=
  l ≠ [] ∧ (∀ c ∈ l, isLabelCh c = true) ∧
    (∀ c, l.head? = some c → isAlnumCh c = true) ∧
    (∀ c, l.getLast? = some c → isAlnumCh c = true)

/-- Declarative hostname grammar denoted by the domain-validation regex: a
first label per `firstLabelSpec` followed by one or more dot-separated
purely alphabetic labels of length at least two. -/
def domainGrammar (cs : List Char) : Prop :=
  ∃ l0 ls, cs = l0 ++ dotJoin ls ∧ firstLabelSpec l0 ∧ ls ≠ [] ∧
    ∀ l ∈ ls, 2 ≤ l.length ∧ ∀ c ∈ l, isAlphaCh c = true

/-- Split a character list on dots, the label segmentation used to state the
claimed grammar of the domain extractor. -/
def splitOnDot : List Char → List (List Char)
  | [] => [[]]
  | c :: cs =>
    if c = '.' then [] :: splitOnDot cs
    else
      match splitOnDot cs with
      | [] => [[c]]
      | h :: t => (c :: h) :: t

/-- The hostname grammar exactly as the claim states it: one or more
dot-separated label segments, each alphanumeric with optional internal
hyphens, and a final label of at least two alphabetic characters. -/
def claimC7Grammar (cs : List Char) : Bool :=
  let parts := splitOnDot cs
  match parts.getLast? with
  | some tld =>
    decide (2 ≤ tld.length) && tld.all isAlphaCh && parts.dropLast.all firstLabelOK
  | none => false

/-- The html document with a `fr` lang attribute and nothing else, used to
exhibit an unsupported code flowing through aggregation. -/
def frDoc : HtmlDoc :=
  ⟨none, none, none, none, none, some "fr", none, none, none, [], [], ""⟩

/-- The full lowercase language names the name-based and body-based
detectors can produce, together with the `unknown` sentinel. -/
def fullLanguageNames : List String :=
  ["tamil", "telugu", "hindi", "kannada", "malayalam", "english", "bengali",
   "marathi", "punjabi", "gujarati", "urdu", "bhojpuri", "assamese", "odia",
   "unknown"]

/-- Specification-side total weight a signal list gives to one normalized
code: the sum of the weights of the signals normalizing to it. -/
def scoreOf (signals : List Signal) (c : String) : ℚ :=
  match signals with
  | [] => 0
  | s :: rest =>
    (if normalizeLanguageCode s.value = some c then s.weight else 0) + scoreOf rest c

/-- Specification-side list of normalized codes in order of first
occurrence among the signals that normalize. -/
def firstSeenCodes : List Signal → List String
  | [] => []
  | s :: rest =>
    match normalizeLanguageCode s.value with
    | none => firstSeenCodes rest
    | some c => c :: (firstSeenCodes rest).filter (fun x => x ≠ c)

theorem takeWhile_split {p : Char → Bool} (xs : List Char) (y : Char)
    (rest : List Char) (hxs : ∀ x ∈ xs, p x = true) (hy : p y = false) :
    (xs ++ y :: rest).takeWhile p = xs ∧ (xs ++ y :: rest).dropWhile p = y :: rest := by
  induction xs with
  | nil => simp [List.takeWhile_cons, List.dropWhile_cons, hy]
  | cons x xs ih =>
    have hx : p x = true := hxs x (by simp)
    have ih2 := ih (fun c hc => hxs c (by simp [hc]))
    simp [List.takeWhile_cons, List.dropWhile_cons, hx, ih2.1, ih2.2]

theorem tldRun_iff (cs : List Char) : ∀ seen : ℕ,
    (tldRun cs seen = true ↔
      ∃ a ls, cs = a ++ dotJoin ls ∧ (∀ c ∈ a, isAlphaCh c = true) ∧
        2 ≤ seen + a.length ∧
        ∀ l ∈ ls, 2 ≤ l.length ∧ ∀ c ∈ l, isAlphaCh c = true) := by
  induction cs with
  | nil =>
    intro seen
    rw [show tldRun [] seen = decide (2 ≤ seen) from rfl, decide_eq_true_eq]
    constructor
    · intro h
      exact ⟨[], [], by simp [dotJoin], by simp, by simpa using h, by simp⟩
    · rintro ⟨a, ls, heq, -, hseen, -⟩
      cases a with
      | nil =>
        cases ls with
        | nil => simpa using hseen
        | cons l ls => rw [dotJoin] at heq; simp at heq
      | cons c a => simp at heq
  | cons c cs ih =>
    intro seen
    by_cases hdot : c = '.'
    · subst hdot
      rw [show tldRun ('.' :: cs) seen = (decide (2 ≤ seen) && tldRun cs 0) from by
            simp [tldRun],
          Bool.and_eq_true, decide_eq_true_eq, ih 0]
      constructor
      · rintro ⟨hseen, a, ls, rfl, ha, halen, hls⟩
        refine ⟨[], a :: ls, by simp [dotJoin], by simp, by simpa using hseen, ?_⟩
        intro l hl
        rcases List.mem_cons.mp hl with rfl | hl
        · exact ⟨by simpa using halen, ha⟩
        · exact hls l hl
      · rintro ⟨a, ls, heq, ha, hseen, hls⟩
        cases a with
        | cons c a =>
          simp only [List.cons_append] at heq
          injection heq with h1 h2
          have hc := ha c (by simp)
          rw [← h1] at hc
          exact absurd hc (by decide)
        | nil =>
          simp only [List.nil_append] at heq
          cases ls with
          | nil => rw [dotJoin] at heq; simp at heq
          | cons l ls =>
            rw [dotJoin] at heq
            injection heq with hh h2
            refine ⟨by simpa using hseen, l, ls, h2, (hls l (by simp)).2, ?_,
              fun x hx => hls x (List.mem_cons_of_mem _ hx)⟩
            have := (hls l (by simp)).1
            omega
    · cases hca : isAlphaCh c
      · rw [show tldRun (c :: cs) seen = false from by simp [tldRun, hdot, hca]]
        constructor
        · intro h; simp at h
        · rintro ⟨a, ls, heq, ha, -, -⟩
          exfalso
          cases a with
          | nil =>
            simp only [List.nil_append] at heq
            cases ls with
            | nil => rw [dotJoin] at heq; simp at heq
            | cons l ls =>
              rw [dotJoin] at heq
              injection heq with h1 h2x
              exact hdot h1
          | cons c2 a =>
            simp only [List.cons_append] at heq
            injection heq with h1 h2
            have hc := ha c2 (by simp)
            rw [← h1] at hc
            rw [hc] at hca
            simp at hca
      · rw [show tldRun (c :: cs) seen = tldRun cs (seen + 1) from by
            simp [tldRun, hdot, hca], ih (seen + 1)]
        constructor
        · rintro ⟨a, ls, rfl, ha, hseen, hls⟩
          refine ⟨c :: a, ls, by simp, ?_, ?_, hls⟩
          · intro x hx
            rcases List.mem_cons.mp hx with rfl | hx
            · exact hca
            · exact ha x hx
          · simp only [List.length_cons]
            omega
        · rintro ⟨a, ls, heq, ha, hseen, hls⟩
          cases a with
          | nil =>
            simp only [List.nil_append] at heq
            cases ls with
            | nil => rw [dotJoin] at heq; simp at heq
            | cons l ls =>
              rw [dotJoin] at heq
              injection heq with h1 h2x
              exact absurd h1 hdot
          | cons c2 a =>
            simp only [List.cons_append] at heq
            injection heq with h1 h2
            subst h1
            refine ⟨a, ls, h2, fun x hx => ha x (List.mem_cons_of_mem _ hx), ?_, hls⟩
            simp only [List.length_cons] at hseen
            omega

theorem tldGroups_iff (cs : List Char) :
    tldGroups cs = true ↔
      ∃ ls, ls ≠ [] ∧ cs = dotJoin ls ∧
        ∀ l ∈ ls, 2 ≤ l.length ∧ ∀ c ∈ l, isAlphaCh c = true := by
  constructor
  · intro h
    unfold tldGroups at h
    split at h
    · rename_i cs2
      rcases (tldRun_iff cs2 0).1 h with ⟨a, ls, rfl, ha, halen, hls⟩
      refine ⟨a :: ls, by simp, by simp [dotJoin], ?_⟩
      intro l hl
      rcases List.mem_cons.mp hl with rfl | hl
      · exact ⟨by simpa using halen, ha⟩
      · exact hls l hl
    · simp at h
  · rintro ⟨ls, hne, rfl, hls⟩
    cases ls with
    | nil => exact absurd rfl hne
    | cons l ls =>
      rw [show dotJoin (l :: ls) = '.' :: (l ++ dotJoin ls) from rfl]
      rw [show tldGroups ('.' :: (l ++ dotJoin ls)) = tldRun (l ++ dotJoin ls) 0 from rfl]
      refine (tldRun_iff _ 0).2 ⟨l, ls, rfl, (hls l (by simp)).2, ?_,
        fun x hx => hls x (List.mem_cons_of_mem _ hx)⟩
      have := (hls l (by simp)).1
      omega

theorem firstLabelOK_iff (l : List Char) :
    firstLabelOK l = true ↔ firstLabelSpec l := by
  cases l with
  | nil => simp [firstLabelOK, firstLabelSpec]
  | cons c cs =>
    have hlast : (c :: cs).getLast? = some ((c :: cs).getLast (by simp)) :=
      List.getLast?_eq_getLast _ (by simp)
    constructor
    · intro h
      simp only [firstLabelOK, Bool.and_eq_true, List.all_eq_true] at h
      refine ⟨by simp, h.1.2, ?_, ?_⟩
      · intro x hx
        simp only [List.head?_cons, Option.some.injEq] at hx
        exact hx ▸ h.1.1
      · intro x hx
        rw [hlast] at hx
        simp only [Option.some.injEq] at hx
        exact hx ▸ h.2
    · rintro ⟨-, hall, hhead, hlastp⟩
      simp only [firstLabelOK, Bool.and_eq_true, List.all_eq_true]
      exact ⟨⟨hhead c (by simp), hall⟩, hlastp _ hlast⟩

theorem validDomainCandidate_iff (cs : List Char) :
    validDomainCandidate cs = true ↔ domainGrammar cs := by
  constructor
  · intro h
    simp only [validDomainCandidate, Bool.and_eq_true] at h
    rcases (tldGroups_iff _).1 h.2 with ⟨ls, hne, hdrop, hls⟩
    refine ⟨cs.takeWhile isLabelCh, ls, ?_, (firstLabelOK_iff _).1 h.1, hne, hls⟩
    rw [← hdrop, List.takeWhile_append_dropWhile]
  · rintro ⟨l0, ls, rfl, hl0, hne, hls⟩
    cases ls with
    | nil => exact absurd rfl hne
    | cons l ls =>
      have hjoin : l0 ++ dotJoin (l :: ls) = l0 ++ '.' :: (l ++ dotJoin ls) := rfl
      have hsplit := takeWhile_split (p := isLabelCh) l0 '.' (l ++ dotJoin ls)
        hl0.2.1 (by decide)
      simp only [validDomainCandidate, hjoin, hsplit.1, hsplit.2, Bool.and_eq_true]
      refine ⟨(firstLabelOK_iff _).2 hl0, (tldGroups_iff _).2 ⟨l :: ls, by simp, rfl, hls⟩⟩

example : claimC7Grammar "a.b2.com".data = true := by decide

example : validDomainCandidate "a.b2.com".data = false := by decide

example : claimC7Grammar "sub-d.example.com".data = true := by decide

example : validDomainCandidate "sub-d.example.com".data = true := by decide

example : detectExplicitLanguageInName "XYZ Tamil News" = some "tamil" := by decide

example : detectExplicitLanguageInName "Sun TV" = none := by decide

example : detectLanguageByPattern "Sun TV" = "tamil" := by decide

example : detectLanguageByPattern "Zee Keralam" = "malayalam" := by decide

example : detectLanguageByPattern "My Bharat Something" = "hindi" := by decide

example : detectLanguageByPattern "xyzabc" = "unknown" := by decide

example : detectLanguageByPattern "Zee Cinema" = "hindi" := by decide

example : detectLanguageByPattern "Zee Tamil something" = "tamil" := by decide

example : extractDomain (some "SunTV.in@HD") = some "SunTV.in" := by decide

example : extractDomain (some "NotADomain") = none := by decide

example : extractDomain (some "SunTV.in") = some "SunTV.in" := by decide

example : extractDomain (some "a.b2.com") = none := by decide

example : normalizeLanguageCode "fr" = some "fr" := by decide

example : normalizeLanguageCode "ta-IN" = some "ta" := by decide

example : normalizeLanguageCode "bangla" = some "bn" := by decide

example : normalizeLanguageCode "xyz" = none := by decide

example :
    aggregateLanguageSignals
      [⟨"html-lang", "en", 5⟩, ⟨"body-text", "tamil", 15⟩] = some "ta" := by
  decide

example :
    detectLanguageFromDescription "7smusic is a famous Tamil language music channel" =
      some "tamil" := by decide

example : detectLanguageFromDescription "nothing here" = none := by decide

example : detectLanguageFromResources "js/app.ta-IN.min.js" = some "ta" := by decide

example :
    detectLanguageFromBodyText "short" (fun _ => "und") =
      ⟨none, 0, "insufficient-text"⟩ := by decide

example :
    (analyzeTextLanguage (String.mk (List.replicate 60 'அ')) (fun _ => "und")).method =
      "script-detection" := by
  have h1 : cleanOf (String.mk (List.replicate 60 'அ')) = List.replicate 60 'அ' := by
    decide
  have h2 : maxScriptOf ((List.replicate 60 'அ').take 5000) = (some "tamil", 60) := by
    decide
  have h3 : ((List.replicate 60 'அ').take 5000).length = 60 := by decide
  simp only [analyzeTextLanguage, h1, h2, h3]
  rw [if_neg (by norm_num), if_pos ⟨by norm_num, by norm_num, by decide⟩]

theorem extractDomain_eq (s : String) (hs : s ≠ "") :
    extractDomain (some s) =
      if validDomainCandidate (candidateOf s) then some (String.mk (candidateOf s))
      else none := by
  simp only [extractDomain, if_neg hs]
  by_cases hv : validDomainCandidate (candidateOf s)
  · have hne : candidateOf s ≠ [] := by
      intro h0
      rw [h0] at hv
      exact absurd hv (by decide)
    simp [hv, hne]
  · simp [hv]

/-- Claim C7 (amended): for every tvgId string, `extractDomain` takes the
trimmed text before the first `@` (the whole trimmed string when no `@`
occurs) as the candidate and returns it exactly when it matches the
hostname grammar the regex actually encodes: a first label, alphanumeric
with optional internal hyphens, followed by one or more dot-separated
labels each consisting of at least two alphabetic characters (so every
label after the first, not only the TLD, is purely alphabetic of length at
least two, and the candidate contains at least one dot); every other
candidate yields null. -/
theorem extractDomain_grammar_characterization (s d : String) :
    extractDomain (some s) = some d ↔
      s ≠ "" ∧ d = String.mk (candidateOf s) ∧ domainGrammar (candidateOf s) := by
  by_cases hs : s = ""
  · simp [extractDomain, hs]
  · rw [extractDomain_eq s hs]
    by_cases hg : domainGrammar (candidateOf s)
    · rw [if_pos ((validDomainCandidate_iff _).2 hg)]
      simp only [Option.some.injEq, ne_eq, hs, not_false_iff, true_and]
      constructor
      · intro h
        exact ⟨h.symm, hg⟩
      · rintro ⟨rfl, -⟩
        rfl
    · have hv : validDomainCandidate (candidateOf s) = false := by
        cases h : validDomainCandidate (candidateOf s)
        · rfl
        · exact absurd ((validDomainCandidate_iff _).1 h) hg
      rw [if_neg (by simp [hv])]
      simp [hg]

/-- Witness for C7's characterization at the spec's own example input. -/
theorem extractDomain_grammar_characterization_witness :
    domainGrammar (candidateOf "SunTV.in@HD") :=
  ((extractDomain_grammar_characterization "SunTV.in@HD" "SunTV.in").mp (by decide)).2.2

/-- Counterexample to claim C7 as stated: the candidate `a.b2.com` (its own
trimmed text before the first `@`) satisfies the claimed grammar — labels
`a` and `b2` are alphanumeric, the final label `com` is three letters — yet
`extractDomain` rejects it, because the regex requires every label after
the first to be purely alphabetic of length at least two and `b2` contains
a digit. -/
theorem extractDomain_claim_grammar_counterexample :
    candidateOf "a.b2.com" = "a.b2.com".data ∧
      claimC7Grammar "a.b2.com".data = true ∧
      extractDomain (some "a.b2.com") = none := by decide

/-- Claim C6 (amended): `extractDomain` is a total function returning null
on null/non-string input; a string whose candidate (the trimmed text before
the first `@`) fails the hostname grammar always yields null; the spec's
examples hold; but a string with no `@` whose whole text is a valid
hostname yields that hostname rather than null. -/
theorem extractDomain_total_and_invalid_null :
    extractDomain none = none ∧
    extractDomain (some "SunTV.in@HD") = some "SunTV.in" ∧
    extractDomain (some "NotADomain") = none ∧
    (∀ s : String, ¬ domainGrammar (candidateOf s) → extractDomain (some s) = none) ∧
    extractDomain (some "SunTV.in") = some "SunTV.in" := by
  refine ⟨rfl, by decide, by decide, ?_, by decide⟩
  intro s hg
  by_cases hs : s = ""
  · simp [extractDomain, hs]
  · rw [extractDomain_eq s hs, if_neg]
    intro h
    exact hg ((validDomainCandidate_iff _).1 h)

/-- Witness for C6 (amended), discharging the grammar-failure hypothesis at
the concrete input `NotADomain`. -/
theorem extractDomain_total_and_invalid_null_witness :
    extractDomain (some "NotADomain") = none :=
  extractDomain_total_and_invalid_null.2.2.2.1 "NotADomain"
    (fun hg => absurd ((validDomainCandidate_iff _).2 hg) (by decide))

/-- Counterexample to claim C6 as stated: the claim declares every string
with no `@` segment invalid (yielding null), but `SunTV.in` contains no `@`
and is returned as a valid domain. -/
theorem extractDomain_no_at_counterexample :
    ('@' ∉ "SunTV.in".data) ∧ extractDomain (some "SunTV.in") = some "SunTV.in" := by
  decide

theorem resolveHTML_some (m : MetadataResult) (b : DetectionResult) (l : String)
    (hb : b.language = some l) :
    resolveHTML m b false =
      (if m.language = some "en" ∧ l ≠ "en" ∧ (1 : ℚ)/2 ≤ b.confidence then some l
       else if (7 : ℚ)/10 ≤ b.confidence then some l
       else aggregateLanguageSignals (combinedSignals m b false)) := by
  obtain ⟨lang, conf, mth⟩ := b
  simp only at hb
  cases hb
  rfl

theorem resolveHTML_none (m : MetadataResult) (b : DetectionResult)
    (hb : b.language = none) :
    resolveHTML m b false = aggregateLanguageSignals (combinedSignals m b false) := by
  obtain ⟨lang, conf, mth⟩ := b
  simp only at hb
  cases hb
  rfl

theorem combinedSignals_some (m : MetadataResult) (b : DetectionResult) (l : String)
    (hb : b.language = some l) :
    combinedSignals m b false =
      m.signals.map (fun s => ⟨s.source, s.value, s.weight * (1/2 : ℚ)⟩) ++
        [Signal.mk "body-text" l (if l = "en" then 8 else 15)] := by
  obtain ⟨lang, conf, mth⟩ := b
  simp only at hb
  cases hb
  rfl

/-- Claim C1: in default mode, when the metadata analyzer's aggregated
language is `en` and the body-text analyzer yields a non-English language
(neither the code `en` nor the name `english`) with confidence at least
0.5, the resolver returns the body language immediately, before any
aggregation; in particular, with metadata language `en` and body result
`{language: ta, confidence: 0.6}` it returns `ta` whatever other weighted
signals are present. -/
theorem resolveHTML_conflict_override :
    (∀ (m : MetadataResult) (b : DetectionResult) (l : String),
      m.language = some "en" → b.language = some l → l ≠ "en" → l ≠ "english" →
      (1 : ℚ)/2 ≤ b.confidence → resolveHTML m b false = some l) ∧
    (∀ (m : MetadataResult) (mth : String), m.language = some "en" →
      resolveHTML m ⟨some "ta", (6 : ℚ)/10, mth⟩ false = some "ta") := by
  constructor
  · intro m b l hm hb hen _heng hconf
    rw [resolveHTML_some m b l hb, if_pos ⟨hm, hen, hconf⟩]
  · intro m mth hm
    rw [resolveHTML_some m ⟨some "ta", (6 : ℚ)/10, mth⟩ "ta" rfl,
      if_pos ⟨hm, by decide, by norm_num⟩]

/-- Witness for C1 at a concrete metadata result carrying an adversarial
strong signal: the override still returns the body language. -/
theorem resolveHTML_conflict_override_witness :
    resolveHTML ⟨some "en", "high", [⟨"html-lang", "en", 10⟩, ⟨"og-locale", "hi", 7⟩]⟩
        ⟨some "ta", (6 : ℚ)/10, "script-detection"⟩ false = some "ta" :=
  resolveHTML_conflict_override.2
    ⟨some "en", "high", [⟨"html-lang", "en", 10⟩, ⟨"og-locale", "hi", 7⟩]⟩
    "script-detection" rfl

/-- Claim C4: whenever the body-text detection result has a non-null
language `l`, the combined signal list of the full-HTML resolver receives
the signal `{source: body-text, value: l, weight: w}` with `w = 8` exactly
when `l` is the English ISO code `en` (the comparison the source makes) and
`w = 15` otherwise; the body-text analyzer itself emits full language
names, so the name `english` also receives weight 15. -/
theorem combinedSignals_body_weight (m : MetadataResult) (b : DetectionResult)
    (l : String) (hb : b.language = some l) :
    Signal.mk "body-text" l (if l = "en" then 8 else 15) ∈ combinedSignals m b false := by
  rw [combinedSignals_some m b l hb]
  simp

/-- Witness for C4 at a concrete metadata result and body result. -/
theorem combinedSignals_body_weight_witness :
    Signal.mk "body-text" "tamil" (if "tamil" = "en" then 8 else 15) ∈
      combinedSignals ⟨some "en", "high", [⟨"html-lang", "en", 10⟩]⟩
        ⟨some "tamil", (85 : ℚ)/100, "body-language-mention"⟩ false :=
  combinedSignals_body_weight ⟨some "en", "high", [⟨"html-lang", "en", 10⟩]⟩
    ⟨some "tamil", (85 : ℚ)/100, "body-language-mention"⟩ "tamil" rfl

theorem cacheFetch_cacheStore_self (cache : Cache) (d lang src : String) :
    cacheFetch (cacheStore cache d lang src) d = some ⟨lang, src⟩ := by
  induction cache with
  | nil => simp [cacheStore, cacheFetch, lookupAssoc, List.find?]
  | cons p rest ih =>
    obtain ⟨k, e⟩ := p
    by_cases hk : k = d
    · subst hk
      simp [cacheStore, cacheFetch, lookupAssoc, List.find?]
    · simpa [cacheStore, cacheFetch, lookupAssoc, List.find?, hk] using ih

theorem detectLanguage_explicit (ch : Channel) (cache : Cache)
    (fetch : String → Option HtmlDoc) (francO : String → String) (l : String)
    (hx : detectExplicitLanguageInName ch.name = some l) :
    detectLanguage ch cache fetch francO =
      ⟨l, "name-explicit",
        cacheStoreIf cache (extractDomain ch.tvgId) l "name-explicit", false⟩ := by
  unfold detectLanguage
  rw [hx]

theorem detectLanguage_cached (ch : Channel) (cache : Cache)
    (fetch : String → Option HtmlDoc) (francO : String → String) (d : String)
    (e : CacheEntry) (hx : detectExplicitLanguageInName ch.name = none)
    (hd : extractDomain ch.tvgId = some d) (hc : cacheFetch cache d = some e) :
    detectLanguage ch cache fetch francO =
      ⟨e.language, "cached-" ++ e.source, cache, false⟩ := by
  simp only [detectLanguage, hx, hd, hc]

/-- Claim C2: a channel whose name carries a whole-word explicit language
mention resolves to that language with source `name-explicit`, with no
network fetch, whatever the cache or the web would say; when a domain was
extracted, the cache entry of the domain is overwritten with the
name-explicit result. -/
theorem detectLanguage_name_explicit (ch : Channel) (cache : Cache)
    (fetch : String → Option HtmlDoc) (francO : String → String) (l : String)
    (hx : detectExplicitLanguageInName ch.name = some l) :
    (detectLanguage ch cache fetch francO).language = l ∧
    (detectLanguage ch cache fetch francO).source = "name-explicit" ∧
    (detectLanguage ch cache fetch francO).fetched = false ∧
    ∀ d, extractDomain ch.tvgId = some d →
      cacheFetch (detectLanguage ch cache fetch francO).cache d =
        some ⟨l, "name-explicit"⟩ := by
  rw [detectLanguage_explicit ch cache fetch francO l hx]
  refine ⟨rfl, rfl, rfl, ?_⟩
  intro d hd
  show cacheFetch (cacheStoreIf cache (extractDomain ch.tvgId) l "name-explicit") d = _
  rw [hd]
  exact cacheFetch_cacheStore_self cache d l "name-explicit"

/-- Witness for C2: the channel `XYZ Tamil News` resolves to tamil with
source `name-explicit` and overwrites a cache entry that said hindi, with
no fetch. -/
theorem detectLanguage_name_explicit_witness :
    (detectLanguage ⟨"XYZ Tamil News", some "SunTV.in@HD"⟩
        [("SunTV.in", ⟨"hindi", "web"⟩)] (fun _ => none) (fun _ => "und")).language =
        "tamil" ∧
    (detectLanguage ⟨"XYZ Tamil News", some "SunTV.in@HD"⟩
        [("SunTV.in", ⟨"hindi", "web"⟩)] (fun _ => none) (fun _ => "und")).source =
        "name-explicit" ∧
    (detectLanguage ⟨"XYZ Tamil News", some "SunTV.in@HD"⟩
        [("SunTV.in", ⟨"hindi", "web"⟩)] (fun _ => none) (fun _ => "und")).fetched =
        false ∧
    cacheFetch
        (detectLanguage ⟨"XYZ Tamil News", some "SunTV.in@HD"⟩
          [("SunTV.in", ⟨"hindi", "web"⟩)] (fun _ => none) (fun _ => "und")).cache
        "SunTV.in" = some ⟨"tamil", "name-explicit"⟩ := by
  have h := detectLanguage_name_explicit ⟨"XYZ Tamil News", some "SunTV.in@HD"⟩
    [("SunTV.in", ⟨"hindi", "web"⟩)] (fun _ => none) (fun _ => "und") "tamil" (by decide)
  exact ⟨h.1, h.2.1, h.2.2.1, h.2.2.2 "SunTV.in" (by decide)⟩

/-- Counterexample to claim C3 as stated: the channel `Sun Tamil` has a
pre-populated cache entry for its extracted domain `SunTV.in` that stores
hindi from a web detection, yet re-running `detectLanguage` returns tamil
with source `name-explicit`, not the cached language with a `cached-`
prefixed source, because the explicit-name strategy runs before the cache
lookup. -/
theorem detectLanguage_cached_claim_counterexample :
    extractDomain (some "SunTV.in@HD") = some "SunTV.in" ∧
    cacheFetch [("SunTV.in", CacheEntry.mk "hindi" "web")] "SunTV.in" =
      some ⟨"hindi", "web"⟩ ∧
    (detectLanguage ⟨"Sun Tamil", some "SunTV.in@HD"⟩
        [("SunTV.in", ⟨"hindi", "web"⟩)] (fun _ => none) (fun _ => "und")).language =
        "tamil" ∧
    (detectLanguage ⟨"Sun Tamil", some "SunTV.in@HD"⟩
        [("SunTV.in", ⟨"hindi", "web"⟩)] (fun _ => none) (fun _ => "und")).source =
        "name-explicit" ∧
    "tamil" ≠ "hindi" ∧ "name-explicit" ≠ "cached-web" := by
  decide

/-- Claim C3 (amended): a channel whose extracted domain has a cache entry
never triggers a network fetch; when additionally its name carries no
whole-word explicit language mention, the call returns the stored cached
language with source `cached-` followed by the entry's stored source and
leaves the cache unchanged (otherwise the name-explicit strategy, which
runs first, answers instead). -/
theorem detectLanguage_cache_hit (ch : Channel) (cache : Cache)
    (fetch : String → Option HtmlDoc) (francO : String → String) (d : String)
    (e : CacheEntry) (hd : extractDomain ch.tvgId = some d)
    (hc : cacheFetch cache d = some e) :
    (detectLanguage ch cache fetch francO).fetched = false ∧
    (detectExplicitLanguageInName ch.name = none →
      detectLanguage ch cache fetch francO =
        ⟨e.language, "cached-" ++ e.source, cache, false⟩) := by
  cases hx : detectExplicitLanguageInName ch.name with
  | some l =>
    rw [detectLanguage_explicit ch cache fetch francO l hx]
    exact ⟨rfl, fun h => absurd h (by simp [hx])⟩
  | none =>
    rw [detectLanguage_cached ch cache fetch francO d e hx hd hc]
    exact ⟨rfl, fun _ => rfl⟩

/-- Witness for C3 (amended) at a concrete channel with no explicit name
mention and a pre-populated cache entry. -/
theorem detectLanguage_cache_hit_witness :
    detectLanguage ⟨"Some Channel", some "SunTV.in@HD"⟩
        [("SunTV.in", ⟨"hindi", "web"⟩)] (fun _ => none) (fun _ => "und") =
      ⟨"hindi", "cached-web", [("SunTV.in", ⟨"hindi", "web"⟩)], false⟩ :=
  (detectLanguage_cache_hit ⟨"Some Channel", some "SunTV.in@HD"⟩
      [("SunTV.in", ⟨"hindi", "web"⟩)] (fun _ => none) (fun _ => "und")
      "SunTV.in" ⟨"hindi", "web"⟩ (by decide) (by decide)).2 (by decide)

theorem analyzeTextLanguage_conf_le (t : String) (francO : String → String) :
    (analyzeTextLanguage t francO).confidence ≤ (19 : ℚ)/20 := by
  unfold analyzeTextLanguage
  dsimp only
  repeat' split
  all_goals first
    | exact min_le_left _ _
    | norm_num

theorem analyzeTextLanguage_script_conf (t : String) (francO : String → String) :
    (analyzeTextLanguage t francO).method = "script-detection" →
    (analyzeTextLanguage t francO).confidence = min ((19 : ℚ)/20) (winShare t * 10) := by
  unfold analyzeTextLanguage
  dsimp only
  repeat' split
  all_goals intro h
  all_goals first
    | rfl
    | (simp only [winShare, sampleOf]; done)
    | simp at h

/-- Claim C8: every confidence `analyzeTextLanguage` returns is at most
0.95, and on the script-detection path the confidence is
`min(0.95, share * 10)`, hence monotone in the winning script's character
share: between any two texts both resolved by script detection, a larger
share never produces a smaller confidence. -/
theorem script_confidence_monotone :
    (∀ (t : String) (francO : String → String),
      (analyzeTextLanguage t francO).confidence ≤ (19 : ℚ)/20) ∧
    (∀ (t1 t2 : String) (f1 f2 : String → String),
      (analyzeTextLanguage t1 f1).method = "script-detection" →
      (analyzeTextLanguage t2 f2).method = "script-detection" →
      winShare t1 ≤ winShare t2 →
      (analyzeTextLanguage t1 f1).confidence ≤ (analyzeTextLanguage t2 f2).confidence) := by
  refine ⟨analyzeTextLanguage_conf_le, ?_⟩
  intro t1 t2 f1 f2 h1 h2 hshare
  rw [analyzeTextLanguage_script_conf t1 f1 h1, analyzeTextLanguage_script_conf t2 f2 h2]
  exact min_le_min le_rfl (mul_le_mul_of_nonneg_right hshare (by norm_num))

/-- Witness for C8 at two concrete texts resolved by script detection, with
winning-script shares one half and one. -/
theorem script_confidence_monotone_witness :
    (analyzeTextLanguage (String.mk (List.replicate 55 'அ' ++ List.replicate 55 'x'))
        (fun _ => "und")).confidence ≤
      (analyzeTextLanguage (String.mk (List.replicate 60 'அ'))
        (fun _ => "und")).confidence := by
  have e1 : cleanOf (String.mk (List.replicate 55 'அ' ++ List.replicate 55 'x')) =
      List.replicate 55 'அ' ++ List.replicate 55 'x' := by decide
  have e2 : maxScriptOf ((List.replicate 55 'அ' ++ List.replicate 55 'x').take 5000) =
      (some "tamil", 55) := by decide
  have e3 : ((List.replicate 55 'அ' ++ List.replicate 55 'x').take 5000).length = 110 := by
    decide
  have f1 : cleanOf (String.mk (List.replicate 60 'அ')) = List.replicate 60 'அ' := by
    decide
  have f2 : maxScriptOf ((List.replicate 60 'அ').take 5000) = (some "tamil", 60) := by
    decide
  have f3 : ((List.replicate 60 'அ').take 5000).length = 60 := by decide
  have hA : (analyzeTextLanguage
      (String.mk (List.replicate 55 'அ' ++ List.replicate 55 'x'))
      (fun _ => "und")).method = "script-detection" := by
    simp only [analyzeTextLanguage, e1, e2, e3]
    rw [if_neg (by norm_num), if_pos ⟨by norm_num, by norm_num, by decide⟩]
  have hB : (analyzeTextLanguage (String.mk (List.replicate 60 'அ'))
      (fun _ => "und")).method = "script-detection" := by
    simp only [analyzeTextLanguage, f1, f2, f3]
    rw [if_neg (by norm_num), if_pos ⟨by norm_num, by norm_num, by decide⟩]
  have hshare : winShare (String.mk (List.replicate 55 'அ' ++ List.replicate 55 'x')) ≤
      winShare (String.mk (List.replicate 60 'அ')) := by
    simp only [winShare, sampleOf, e1, e2, e3, f1, f2, f3]
    norm_num
  exact script_confidence_monotone.2 _ _ _ _ hA hB hshare

theorem jsLowerChar_of_lc (c : Char) (h : lcAlpha c = true) : jsLowerChar c = c := by
  simp only [lcAlpha, Bool.and_eq_true, decide_eq_true_eq] at h
  unfold jsLowerChar
  rw [if_neg]
  intro hc
  omega

theorem isWs_false_of_lc (c : Char) (h : lcAlpha c = true) : isWs c = false := by
  simp only [lcAlpha, Bool.and_eq_true, decide_eq_true_eq] at h
  simp only [isWs, Bool.or_eq_false_iff, decide_eq_false_iff_not]
  omega

theorem dropWhile_eq_self_of_ws (cs : List Char) (h : ∀ c ∈ cs, isWs c = false) :
    cs.dropWhile isWs = cs := by
  cases cs with
  | nil => rfl
  | cons c cs => simp [List.dropWhile_cons, h c (by simp)]

theorem jsTrim_eq_self (cs : List Char) (h : ∀ c ∈ cs, isWs c = false) :
    jsTrim cs = cs := by
  unfold jsTrim
  rw [dropWhile_eq_self_of_ws cs h,
    dropWhile_eq_self_of_ws cs.reverse (fun c hc => h c (List.mem_reverse.mp hc)),
    List.reverse_reverse]

/-- Claim C10: `normalizeLanguageCode` maps every two-lowercase-letter
string to itself, and every value whose lowercased trimmed form starts with
two lowercase letters followed by a locale separator to those two letters,
with no membership check against the fourteen supported languages;
consequently a document whose html lang attribute is `fr` makes
`detectLanguageFromHTML` return `fr`, a code outside the supported set. -/
theorem normalize_no_whitelist :
    (∀ s : String, twoLower s.data = true → normalizeLanguageCode s = some s) ∧
    (∀ (s : String) (c1 c2 c3 : Char) (rest : List Char),
      jsTrim (jsLower s.data) = c1 :: c2 :: c3 :: rest →
      lcAlpha c1 = true → lcAlpha c2 = true → (c3 = '-' ∨ c3 = '_') →
      normalizeLanguageCode s = some (String.mk [c1, c2])) ∧
    (detectLanguageFromHTML frDoc (fun _ => "und") false = some "fr" ∧
      "fr" ∉ LANGUAGE_CODES.map (fun p => p.2)) := by
  refine ⟨?_, ?_, by decide, by decide⟩
  · intro s h
    obtain ⟨cs⟩ := s
    rcases cs with - | ⟨c1, - | ⟨c2, - | ⟨c3, rest⟩⟩⟩
    · simp [twoLower] at h
    · simp [twoLower] at h
    · simp only [twoLower, Bool.and_eq_true] at h
      have hne : String.mk [c1, c2] ≠ "" := by
        intro h0
        have : ([c1, c2] : List Char) = [] := congrArg String.data h0
        simp at this
      have hlow : jsLower [c1, c2] = [c1, c2] := by
        simp [jsLower, jsLowerChar_of_lc c1 h.1, jsLowerChar_of_lc c2 h.2]
      have htrim : jsTrim [c1, c2] = [c1, c2] := by
        refine jsTrim_eq_self _ ?_
        intro c hc
        rcases List.mem_cons.mp hc with rfl | hc
        · exact isWs_false_of_lc c h.1
        · rcases List.mem_cons.mp hc with rfl | hc
          · exact isWs_false_of_lc c h.2
          · simp at hc
      simp only [normalizeLanguageCode, if_neg hne]
      rw [hlow, htrim, if_pos (by simp [twoLower, h.1, h.2])]
    · simp [twoLower] at h
  · intro s c1 c2 c3 rest heq h1 h2 hc3
    have hne : s ≠ "" := by
      intro h0
      subst h0
      simp [jsLower, jsTrim] at heq
    have htwo : twoLower (c1 :: c2 :: c3 :: rest) = false := rfl
    have hloc : localeTwo (c1 :: c2 :: c3 :: rest) = true := by
      simp only [localeTwo, Bool.and_eq_true]
      rcases hc3 with rfl | rfl
      · simp [h1, h2]
      · simp [h1, h2]
    simp only [normalizeLanguageCode, if_neg hne, heq, htwo, Bool.false_eq_true,
      if_false, hloc, if_true]
    rfl

/-- Witness for C10: the codes `fr` and the locale form `ta-IN` normalize
with no whitelist involved. -/
theorem normalize_no_whitelist_witness :
    normalizeLanguageCode "fr" = some "fr" ∧ normalizeLanguageCode "ta-IN" = some "ta" := by
  constructor
  · exact normalize_no_whitelist.1 "fr" (by decide)
  · exact normalize_no_whitelist.2.1 "ta-IN" 't' 'a' '-' ['i', 'n'] (by decide)
      (by decide) (by decide) (by decide)

theorem lookupAssoc_mem_values {α : Type} {tbl : List (String × α)} {k : String}
    {v : α} (h : lookupAssoc tbl k = some v) : v ∈ tbl.map (fun q => q.2) := by
  unfold lookupAssoc at h
  obtain ⟨pr, hpr, rfl⟩ := Option.map_eq_some'.mp h
  exact List.mem_map.mpr ⟨pr, List.mem_of_find?_eq_some hpr, rfl⟩

theorem detectExplicit_mem (name : String) (l : String)
    (h : detectExplicitLanguageInName name = some l) : l ∈ fullLanguageNames := by
  unfold detectExplicitLanguageInName at h
  obtain ⟨pr, hpr, rfl⟩ := Option.map_eq_some'.mp h
  have hmem : pr ∈ explicitPatterns := List.mem_of_find?_eq_some hpr
  have hsub : ∀ x ∈ explicitPatterns.map (fun q => q.1), x ∈ fullLanguageNames := by
    decide
  exact hsub _ (List.mem_map.mpr ⟨pr, hmem, rfl⟩)

theorem byPattern_mem (name : String) :
    detectLanguageByPattern name ∈ fullLanguageNames := by
  unfold detectLanguageByPattern
  dsimp only
  split
  · rename_i pr hf
    have hmem : pr ∈ LANGUAGE_PATTERNS := List.mem_of_find?_eq_some hf
    have hsub : ∀ x ∈ LANGUAGE_PATTERNS.map (fun q => q.1), x ∈ fullLanguageNames := by
      decide
    exact hsub _ (List.mem_map.mpr ⟨pr, hmem, rfl⟩)
  · split
    · decide
    · decide

theorem description_mem (text : String) (l : String)
    (h : detectLanguageFromDescription text = some l) : l ∈ fullLanguageNames := by
  unfold detectLanguageFromDescription at h
  by_cases ht : text = ""
  · rw [if_pos ht] at h
    exact absurd h (by simp)
  · rw [if_neg ht] at h
    obtain ⟨pr, hpr, rfl⟩ := Option.map_eq_some'.mp h
    have hmem : pr ∈ mentionTable := List.mem_of_find?_eq_some hpr
    have hsub : ∀ x ∈ mentionTable.map (fun q => q.1), x ∈ fullLanguageNames := by
      decide
    exact hsub _ (List.mem_map.mpr ⟨pr, hmem, rfl⟩)

theorem scriptLang_mem (o : Option String) (l : String)
    (h : o.bind (lookupAssoc scriptMap) = some l) : l ∈ fullLanguageNames := by
  obtain ⟨nm, -, hl⟩ := Option.bind_eq_some.mp h
  have := lookupAssoc_mem_values hl
  have hsub : ∀ x ∈ scriptMap.map (fun q => q.2), x ∈ fullLanguageNames := by decide
  exact hsub _ this

theorem francLang_mem (k : String) (l : String)
    (h : (lookupAssoc FRANC_TO_LANGUAGE_NAME k).join = some l) :
    l ∈ fullLanguageNames := by
  have hv := Option.join_eq_some.mp h
  have := lookupAssoc_mem_values hv
  simp only [FRANC_TO_LANGUAGE_NAME, List.map_cons, List.map_nil, List.mem_cons,
    List.not_mem_nil, or_false, Option.some.injEq, reduceCtorEq, false_or] at this
  rcases this with rfl | rfl | rfl | rfl | rfl | rfl | rfl | rfl | rfl | rfl | rfl |
    rfl | rfl | rfl <;> decide

theorem analyzeTextLanguage_lang_mem (t : String) (francO : String → String)
    (l : String) : (analyzeTextLanguage t francO).language = some l →
    l ∈ fullLanguageNames := by
  unfold analyzeTextLanguage
  dsimp only
  repeat' split
  all_goals intro h
  all_goals first
    | exact scriptLang_mem _ _ h
    | exact francLang_mem _ _ h
    | (simp only [Option.some.injEq] at h; subst h; decide)
    | simp at h

theorem bodyText_lang_mem (bodyText : String) (francO : String → String)
    (l : String) (h : (detectLanguageFromBodyText bodyText francO).language = some l) :
    l ∈ fullLanguageNames := by
  unfold detectLanguageFromBodyText at h
  cases hdesc : detectLanguageFromDescription bodyText with
  | some hint =>
    rw [hdesc] at h
    simp only [Option.some.injEq] at h
    subst h
    exact description_mem _ _ hdesc
  | none =>
    rw [hdesc] at h
    exact analyzeTextLanguage_lang_mem _ _ _ h

theorem cached_src_ne (s t : String) (h : t.data.head? ≠ some 'c') :
    "cached-" ++ s ≠ t := by
  intro heq
  apply h
  rw [← heq]
  obtain ⟨cs⟩ := s
  rfl

theorem bumpScore_keys (acc : List (String × ℚ)) (c : String) (w : ℚ) :
    ∀ x ∈ (bumpScore acc c w).map (fun q => q.1),
      x = c ∨ x ∈ acc.map (fun q => q.1) := by
  induction acc with
  | nil =>
    intro x hx
    simp only [bumpScore, List.map_cons, List.map_nil, List.mem_cons,
      List.not_mem_nil, or_false] at hx
    exact Or.inl hx
  | cons p rest ih =>
    obtain ⟨k, v⟩ := p
    intro x hx
    by_cases hk : k = c
    · rw [show bumpScore ((k, v) :: rest) c w = (k, v + w) :: rest from by
        simp [bumpScore, hk]] at hx
      simp only [List.map_cons, List.mem_cons] at hx
      rcases hx with rfl | hx
      · exact Or.inl hk
      · exact Or.inr (by simp [hx])
    · rw [show bumpScore ((k, v) :: rest) c w = (k, v) :: bumpScore rest c w from by
        simp [bumpScore, hk]] at hx
      simp only [List.map_cons, List.mem_cons] at hx
      rcases hx with rfl | hx
      · exact Or.inr (by simp)
      · rcases ih x hx with h | h
        · exact Or.inl h
        · exact Or.inr (by simp [h])

theorem key_from_signals (signals : List Signal) :
    ∀ (acc : List (String × ℚ)) (p : String × ℚ), p ∈ signals.foldl addSignal acc →
      p.1 ∈ acc.map (fun q => q.1) ∨
        ∃ s ∈ signals, normalizeLanguageCode s.value = some p.1 := by
  induction signals with
  | nil =>
    intro acc p hp
    exact Or.inl (List.mem_map.mpr ⟨p, hp, rfl⟩)
  | cons s rest ih =>
    intro acc p hp
    simp only [List.foldl_cons] at hp
    rcases ih (addSignal acc s) p hp with hk | ⟨s2, hs2, hn⟩
    · unfold addSignal at hk
      cases hnorm : normalizeLanguageCode s.value with
      | none =>
        rw [hnorm] at hk
        exact Or.inl hk
      | some c =>
        rw [hnorm] at hk
        rcases bumpScore_keys acc c s.weight p.1 hk with rfl | hk2
        · exact Or.inr ⟨s, by simp, hnorm⟩
        · exact Or.inl hk2
    · exact Or.inr ⟨s2, by simp [hs2], hn⟩

theorem pickTop_mem (e : String × ℚ) (rest : List (String × ℚ)) :
    pickTop e rest ∈ e :: rest := by
  unfold pickTop
  induction rest generalizing e with
  | nil => simp
  | cons x rest ih =>
    simp only [List.foldl_cons]
    rcases List.mem_cons.mp (ih (if e.2 < x.2 then x else e)) with heq | hmem
    · rw [heq]
      split
      · exact List.mem_cons_of_mem _ (List.mem_cons_self _ _)
      · exact List.mem_cons_self _ _
    · exact List.mem_cons_of_mem _ (List.mem_cons_of_mem _ hmem)

theorem normalize_len2 (v : String) (c : String)
    (h : normalizeLanguageCode v = some c) : c.length = 2 := by
  unfold normalizeLanguageCode at h
  by_cases hv : v = ""
  · rw [if_pos hv] at h
    exact absurd h (by simp)
  · rw [if_neg hv] at h
    dsimp only at h
    by_cases h2 : twoLower (jsTrim (jsLower v.data)) = true
    · rw [if_pos h2] at h
      rcases hsh : jsTrim (jsLower v.data) with - | ⟨c1, - | ⟨c2, - | ⟨c3, rest⟩⟩⟩ <;>
        rw [hsh] at h2 h
      · simp [twoLower] at h2
      · simp [twoLower] at h2
      · simp only [Option.some.injEq] at h
        subst h
        rfl
      · simp [twoLower] at h2
    · rw [if_neg h2] at h
      by_cases h3 : localeTwo (jsTrim (jsLower v.data)) = true
      · rw [if_pos h3] at h
        rcases hsh : jsTrim (jsLower v.data) with - | ⟨c1, - | ⟨c2, - | ⟨c3, rest⟩⟩⟩ <;>
          rw [hsh] at h3 h
        · simp [localeTwo] at h3
        · simp [localeTwo] at h3
        · simp [localeTwo] at h3
        · simp only [Option.some.injEq] at h
          subst h
          rfl
      · rw [if_neg h3] at h
        have := lookupAssoc_mem_values h
        have hall : ∀ x ∈ normalizeLangMap.map (fun q => q.2), x.length = 2 := by
          decide
        exact hall _ this

theorem aggregate_key (signals : List Signal) (c : String)
    (h : aggregateLanguageSignals signals = some c) :
    ∃ s ∈ signals, normalizeLanguageCode s.value = some c := by
  unfold aggregateLanguageSignals at h
  by_cases hs : signals = []
  · rw [if_pos hs] at h
    exact absurd h (by simp)
  · rw [if_neg hs] at h
    dsimp only at h
    cases hsc : signals.foldl addSignal [] with
    | nil =>
      rw [hsc] at h
      exact absurd h (by simp)
    | cons e rest =>
      rw [hsc] at h
      simp only [Option.some.injEq] at h
      have hmem : pickTop e rest ∈ signals.foldl addSignal [] := by
        rw [hsc]
        exact pickTop_mem e rest
      rcases key_from_signals signals [] (pickTop e rest) hmem with hk | ⟨s2, hs2, hn⟩
      · simp at hk
      · exact ⟨s2, hs2, h ▸ hn⟩

/-- Claim C9: the name-explicit and pattern strategies of `detectLanguage`
always return (and cache) full lowercase language names (or the `unknown`
sentinel); the body-text analyzer only yields full names, so the
conflict-override and high-confidence short-circuit paths of
`detectLanguageFromHTML` also return full names; only signal aggregation
produces two-letter ISO 639-1 codes. -/
theorem full_name_vs_code_paths :
    (∀ (ch : Channel) (cache : Cache) (fetch : String → Option HtmlDoc)
        (francO : String → String),
      ((detectLanguage ch cache fetch francO).source = "name-explicit" ∨
        (detectLanguage ch cache fetch francO).source = "pattern") →
      (detectLanguage ch cache fetch francO).language ∈ fullLanguageNames) ∧
    (∀ (bodyText : String) (francO : String → String) (l : String),
      (detectLanguageFromBodyText bodyText francO).language = some l →
      l ∈ fullLanguageNames) ∧
    (∀ (d : HtmlDoc) (francO : String → String) (l : String),
      (detectLanguageFromBodyText d.bodyText francO).language = some l →
      (((detectLanguageFromMetadata d).language = some "en" ∧ l ≠ "en" ∧
          (1 : ℚ)/2 ≤ (detectLanguageFromBodyText d.bodyText francO).confidence) ∨
        (7 : ℚ)/10 ≤ (detectLanguageFromBodyText d.bodyText francO).confidence) →
      detectLanguageFromHTML d francO false = some l ∧ l ∈ fullLanguageNames) ∧
    (∀ (signals : List Signal) (c : String),
      aggregateLanguageSignals signals = some c → c.length = 2) := by
  refine ⟨?_, bodyText_lang_mem, ?_, ?_⟩
  · intro ch cache fetch francO hsrc
    cases hx : detectExplicitLanguageInName ch.name with
    | some l =>
      rw [detectLanguage_explicit ch cache fetch francO l hx]
      exact detectExplicit_mem _ _ hx
    | none =>
      cases hd : extractDomain ch.tvgId with
      | none =>
        have heq : detectLanguage ch cache fetch francO =
            patternFallback ch cache none false := by
          simp only [detectLanguage, hx, hd]
        rw [heq]
        exact byPattern_mem _
      | some d =>
        cases hc : cacheFetch cache d with
        | some e =>
          rw [detectLanguage_cached ch cache fetch francO d e hx hd hc] at hsrc
          rcases hsrc with hsrc | hsrc
          · exact absurd hsrc (cached_src_ne _ _ (by decide))
          · exact absurd hsrc (cached_src_ne _ _ (by decide))
        | none =>
          cases hfetch : fetch d with
          | none =>
            have heq : detectLanguage ch cache fetch francO =
                patternFallback ch cache (some d) true := by
              simp only [detectLanguage, hx, hd, hc, hfetch]
            rw [heq]
            exact byPattern_mem _
          | some doc =>
            cases hdet : detectLanguageFromHTML doc francO false with
            | none =>
              have heq : detectLanguage ch cache fetch francO =
                  patternFallback ch cache (some d) true := by
                simp only [detectLanguage, hx, hd, hc, hfetch, hdet]
              rw [heq]
              exact byPattern_mem _
            | some dl =>
              by_cases hok : dl ≠ "" ∧ dl ≠ "unknown"
              · have heq : detectLanguage ch cache fetch francO =
                    ⟨dl, "web", cacheStore cache d dl "web", true⟩ := by
                  simp only [detectLanguage, hx, hd, hc, hfetch, hdet, if_pos hok]
                rw [heq] at hsrc
                rcases hsrc with hsrc | hsrc <;> simp at hsrc
              · have heq : detectLanguage ch cache fetch francO =
                    patternFallback ch cache (some d) true := by
                  simp only [detectLanguage, hx, hd, hc, hfetch, hdet, if_neg hok]
                rw [heq]
                exact byPattern_mem _
  · intro d francO l hb hcond
    have hmem := bodyText_lang_mem d.bodyText francO l hb
    refine ⟨?_, hmem⟩
    show resolveHTML (detectLanguageFromMetadata d)
      (detectLanguageFromBodyText d.bodyText francO) false = some l
    rw [resolveHTML_some _ _ l hb]
    rcases hcond with ⟨h1, h2, h3⟩ | hconf
    · rw [if_pos ⟨h1, h2, h3⟩]
    · by_cases hov : (detectLanguageFromMetadata d).language = some "en" ∧ l ≠ "en" ∧
          (1 : ℚ)/2 ≤ (detectLanguageFromBodyText d.bodyText francO).confidence
      · rw [if_pos hov]
      · rw [if_neg hov, if_pos hconf]
  · intro signals c h
    obtain ⟨s2, -, hn⟩ := aggregate_key signals c h
    exact normalize_len2 _ _ hn

/-- Witness for C9 at a concrete document whose body text names its
language: the high-confidence body mention short-circuits and the result is
the full name `tamil`. -/
theorem full_name_vs_code_paths_witness :
    detectLanguageFromHTML
        ⟨none, none, none, none, none, none, none, none, none, [], [],
          "a famous tamil language music channel"⟩ (fun _ => "und") false =
      some "tamil" ∧ "tamil" ∈ fullLanguageNames := by
  have hbt : detectLanguageFromBodyText "a famous tamil language music channel"
      (fun _ => "und") = ⟨some "tamil", (85 : ℚ)/100, "body-language-mention"⟩ := rfl
  refine full_name_vs_code_paths.2.2.1
    ⟨none, none, none, none, none, none, none, none, none, [], [],
      "a famous tamil language music channel"⟩ (fun _ => "und") "tamil"
    (by rw [hbt]) (Or.inr (by rw [hbt]; norm_num))

theorem mapCongrMem {α β : Type} {f g : α → β} :
    ∀ {l : List α}, (∀ a ∈ l, f a = g a) → l.map f = l.map g := by
  intro l
  induction l with
  | nil => intro _; rfl
  | cons a l ih =>
    intro h
    simp only [List.map_cons]
    rw [h a (by simp), ih (fun x hx => h x (by simp [hx]))]

theorem bumpScore_mem (codes : List String) (g : String → ℚ) (c0 : String) (w : ℚ)
    (hc0 : c0 ∈ codes) (hnd : codes.Nodup) :
    bumpScore (codes.map (fun c => (c, g c))) c0 w =
      codes.map (fun c => (c, if c = c0 then g c + w else g c)) := by
  induction codes with
  | nil => exact absurd hc0 (by simp)
  | cons k ks ih =>
    simp only [List.map_cons]
    by_cases hk : k = c0
    · subst hk
      rw [show bumpScore ((k, g k) :: ks.map (fun c => (c, g c))) k w =
          (k, g k + w) :: ks.map (fun c => (c, g c)) from by simp [bumpScore]]
      rw [if_pos rfl]
      congr 1
      apply mapCongrMem
      intro a ha
      rw [if_neg]
      intro haeq
      subst haeq
      exact (List.nodup_cons.mp hnd).1 ha
    · rw [show bumpScore ((k, g k) :: ks.map (fun c => (c, g c))) c0 w =
          (k, g k) :: bumpScore (ks.map (fun c => (c, g c))) c0 w from by
        simp [bumpScore, hk]]
      rw [if_neg hk]
      congr 1
      refine ih ?_ (List.nodup_cons.mp hnd).2
      rcases List.mem_cons.mp hc0 with h | h
      · exact absurd h.symm hk
      · exact h

theorem bumpScore_not_mem (codes : List String) (g : String → ℚ) (c0 : String) (w : ℚ)
    (hc0 : c0 ∉ codes) :
    bumpScore (codes.map (fun c => (c, g c))) c0 w =
      codes.map (fun c => (c, g c)) ++ [(c0, w)] := by
  induction codes with
  | nil => simp [bumpScore]
  | cons k ks ih =>
    have hk : ¬(k = c0) := fun h => hc0 (by simp [h])
    simp only [List.map_cons]
    rw [show bumpScore ((k, g k) :: ks.map (fun c => (c, g c))) c0 w =
        (k, g k) :: bumpScore (ks.map (fun c => (c, g c))) c0 w from by
      simp [bumpScore, hk]]
    rw [ih (fun h => hc0 (by simp [h]))]
    simp

theorem scoreOf_cons (s : Signal) (rest : List Signal) (c : String) :
    scoreOf (s :: rest) c =
      (if normalizeLanguageCode s.value = some c then s.weight else 0) +
        scoreOf rest c := rfl

theorem addSignal_none (acc : List (String × ℚ)) (s : Signal)
    (h : normalizeLanguageCode s.value = none) : addSignal acc s = acc := by
  unfold addSignal
  rw [h]

theorem addSignal_some (acc : List (String × ℚ)) (s : Signal) (c : String)
    (h : normalizeLanguageCode s.value = some c) :
    addSignal acc s = bumpScore acc c s.weight := by
  unfold addSignal
  rw [h]

theorem firstSeenCodes_cons_none (s : Signal) (rest : List Signal)
    (h : normalizeLanguageCode s.value = none) :
    firstSeenCodes (s :: rest) = firstSeenCodes rest := by
  show (match normalizeLanguageCode s.value with
    | none => firstSeenCodes rest
    | some c => c :: (firstSeenCodes rest).filter (fun x => x ≠ c)) = _
  rw [h]

theorem firstSeenCodes_cons_some (s : Signal) (rest : List Signal) (c : String)
    (h : normalizeLanguageCode s.value = some c) :
    firstSeenCodes (s :: rest) =
      c :: (firstSeenCodes rest).filter (fun x => x ≠ c) := by
  show (match normalizeLanguageCode s.value with
    | none => firstSeenCodes rest
    | some c => c :: (firstSeenCodes rest).filter (fun x => x ≠ c)) = _
  rw [h]

theorem foldl_addSignal_char (signals : List Signal) :
    ∀ (codes : List String) (g : String → ℚ), codes.Nodup →
      signals.foldl addSignal (codes.map (fun c => (c, g c))) =
        (codes ++ (firstSeenCodes signals).filter (fun c => decide (c ∉ codes))).map
          (fun c => (c, (if c ∈ codes then g c else 0) + scoreOf signals c)) := by
  induction signals with
  | nil =>
    intro codes g hnd
    simp only [List.foldl_nil, firstSeenCodes, List.filter_nil, List.append_nil]
    apply mapCongrMem
    intro a ha
    simp [scoreOf, ha]
  | cons s rest ih =>
    intro codes g hnd
    simp only [List.foldl_cons]
    cases hnorm : normalizeLanguageCode s.value with
    | none =>
      rw [addSignal_none _ s hnorm, ih codes g hnd,
        firstSeenCodes_cons_none s rest hnorm]
      apply mapCongrMem
      intro a ha
      rw [scoreOf_cons, hnorm]
      simp
    | some c0 =>
      by_cases hc0 : c0 ∈ codes
      · rw [addSignal_some _ s c0 hnorm, bumpScore_mem codes g c0 s.weight hc0 hnd,
          ih codes (fun c => if c = c0 then g c + s.weight else g c) hnd]
        have hfsc : (firstSeenCodes (s :: rest)).filter (fun c => decide (c ∉ codes)) =
            (firstSeenCodes rest).filter (fun c => decide (c ∉ codes)) := by
          rw [firstSeenCodes_cons_some s rest c0 hnorm, List.filter_cons,
            if_neg (by simp [hc0]), List.filter_filter]
          apply List.filter_congr
          intro a _
          by_cases hac : a ∈ codes
          · simp [hac]
          · have hane : a ≠ c0 := fun h => hac (by rw [h]; exact hc0)
            simp [hac, hane]
        rw [hfsc]
        apply mapCongrMem
        intro a ha
        rw [scoreOf_cons, hnorm]
        rcases List.mem_append.mp ha with hcc | hcf
        · by_cases haeq : a = c0
          · subst haeq
            simp only [if_pos hcc, if_pos rfl, Option.some.injEq, Prod.mk.injEq,
              true_and]
            simp
            try ring
          · have hane2 : ¬(c0 = a) := fun h => haeq h.symm
            simp [hcc, haeq, hane2]
        · have hcn : a ∉ codes := by
            have := (List.mem_filter.mp hcf).2
            simpa using this
          have hane : a ≠ c0 := fun h => hcn (by rw [h]; exact hc0)
          have hane2 : ¬(c0 = a) := fun h => hane h.symm
          simp [hcn, hane2]
      · rw [addSignal_some _ s c0 hnorm, bumpScore_not_mem codes g c0 s.weight hc0]
        have hacc : codes.map (fun c => (c, g c)) ++ [(c0, s.weight)] =
            (codes ++ [c0]).map (fun c => (c, if c = c0 then s.weight else g c)) := by
          rw [List.map_append]
          congr 1
          · apply mapCongrMem
            intro a ha
            rw [if_neg (show ¬(a = c0) from fun h => hc0 (by rw [← h]; exact ha))]
          · simp
        rw [hacc]
        have hnd2 : (codes ++ [c0]).Nodup := by
          simp [List.nodup_append, hnd, hc0]
        rw [ih (codes ++ [c0]) (fun c => if c = c0 then s.weight else g c) hnd2]
        have hfsc : (codes ++ [c0]) ++
              (firstSeenCodes rest).filter (fun c => decide (c ∉ codes ++ [c0])) =
            codes ++
              (firstSeenCodes (s :: rest)).filter (fun c => decide (c ∉ codes)) := by
          rw [firstSeenCodes_cons_some s rest c0 hnorm, List.filter_cons,
            if_pos (by simp [hc0]), List.filter_filter, List.append_assoc,
            List.singleton_append]
          congr 2
          apply List.filter_congr
          intro a _
          by_cases hac : a ∈ codes
          · simp [hac]
          · by_cases haeq : a = c0
            · subst haeq
              simp
            · simp [hac, haeq]
        rw [← hfsc]
        apply mapCongrMem
        intro a ha
        rw [scoreOf_cons, hnorm]
        rcases List.mem_append.mp ha with hcc | hcf
        · rcases List.mem_append.mp hcc with hcod | hsing
          · have hane : a ≠ c0 := fun h => hc0 (by rw [← h]; exact hcod)
            have hane2 : ¬(c0 = a) := fun h => hane h.symm
            simp [hcc, hcod, hane, hane2]
          · have haeq : a = c0 := by simpa using hsing
            subst haeq
            simp [hcc, hc0]
            try ring
        · have hcn2 := (List.mem_filter.mp hcf).2
          have hcn : a ∉ codes ++ [c0] := by simpa using hcn2
          have hcnc : a ∉ codes := fun h => hcn (by simp [h])
          have hane : a ≠ c0 := fun h => hcn (by simp [h])
          have hane2 : ¬(c0 = a) := fun h => hane h.symm
          simp [hcn, hcnc, hane2]

theorem buildScores_eq (signals : List Signal) :
    signals.foldl addSignal [] =
      (firstSeenCodes signals).map (fun c => (c, scoreOf signals c)) := by
  have h := foldl_addSignal_char signals [] (fun _ => 0) (by simp)
  simpa using h

theorem fsc_nil_iff (signals : List Signal) :
    firstSeenCodes signals = [] ↔
      ∀ s ∈ signals, normalizeLanguageCode s.value = none := by
  induction signals with
  | nil => simp [firstSeenCodes]
  | cons s rest ih =>
    cases hnorm : normalizeLanguageCode s.value with
    | none =>
      rw [firstSeenCodes_cons_none s rest hnorm, ih]
      constructor
      · intro h x hx
        rcases List.mem_cons.mp hx with rfl | hx
        · exact hnorm
        · exact h x hx
      · intro h x hx
        exact h x (List.mem_cons_of_mem _ hx)
    | some c =>
      rw [firstSeenCodes_cons_some s rest _ hnorm]
      simp only [reduceCtorEq, false_iff, not_forall]
      exact ⟨s, by simp, by simp [hnorm]⟩

theorem pickTop_first_max (e : String × ℚ) (rest : List (String × ℚ)) :
    ∃ l1 l2, e :: rest = l1 ++ pickTop e rest :: l2 ∧
      (∀ x ∈ l1, x.2 < (pickTop e rest).2) ∧
      (∀ x ∈ l2, x.2 ≤ (pickTop e rest).2) := by
  unfold pickTop
  induction rest generalizing e with
  | nil => exact ⟨[], [], by simp, by simp, by simp⟩
  | cons x rest ih =>
    simp only [List.foldl_cons]
    by_cases hx : e.2 < x.2
    · rw [if_pos hx]
      obtain ⟨l1, l2, heq, h1, h2⟩ := ih x
      have hxle : x.2 ≤ (List.foldl (fun best y => if best.2 < y.2 then y else best)
          x rest).2 := by
        have hxmem : x ∈ l1 ++ (List.foldl (fun best y => if best.2 < y.2 then y
            else best) x rest) :: l2 := by
          rw [← heq]
          simp
        rcases List.mem_append.mp hxmem with hm | hm
        · exact le_of_lt (h1 x hm)
        · rcases List.mem_cons.mp hm with hm2 | hm2
          · exact le_of_eq (congrArg Prod.snd hm2)
          · exact h2 x hm2
      refine ⟨e :: l1, l2, by rw [List.cons_append, ← heq], ?_, h2⟩
      intro y hy
      rcases List.mem_cons.mp hy with rfl | hy
      · exact lt_of_lt_of_le hx hxle
      · exact h1 y hy
    · rw [if_neg hx]
      obtain ⟨l1, l2, heq, h1, h2⟩ := ih e
      cases l1 with
      | nil =>
        simp only [List.nil_append] at heq
        injection heq with he1 he2
        refine ⟨[], x :: rest, ?_, by simp, ?_⟩
        · rw [List.nil_append, ← he1]
        · intro y hy
          rcases List.mem_cons.mp hy with rfl | hy
          · rw [← he1]
            exact not_lt.mp hx
          · exact h2 y (he2 ▸ hy)
      | cons a l1 =>
        simp only [List.cons_append] at heq
        injection heq with he1 he2
        have har : a.2 < (List.foldl (fun best y => if best.2 < y.2 then y else best)
            e rest).2 := h1 a (by simp)
        rw [← he1] at har
        refine ⟨e :: x :: l1, l2, ?_, ?_, h2⟩
        · conv_lhs => rw [he2]
          rfl
        · intro y hy
          rcases List.mem_cons.mp hy with hye | hy
          · rw [hye]
            exact har
          · rcases List.mem_cons.mp hy with hyx | hy
            · rw [hyx]
              exact lt_of_le_of_lt (not_lt.mp hx) har
            · exact h1 y (by simp [hy])

theorem map_split {α β : Type} (f : α → β) :
    ∀ (l : List α) (l1 l2 : List β) (y : β), l.map f = l1 ++ y :: l2 →
      ∃ m1 x m2, l = m1 ++ x :: m2 ∧ m1.map f = l1 ∧ f x = y ∧ m2.map f = l2 := by
  intro l
  induction l with
  | nil =>
    intro l1 l2 y h
    rw [List.map_nil] at h
    exact absurd h.symm (List.append_ne_nil_of_right_ne_nil _ (by simp))
  | cons a l ih =>
    intro l1 l2 y h
    cases l1 with
    | nil =>
      rw [List.map_cons, List.nil_append] at h
      injection h with h1 h2
      exact ⟨[], a, l, rfl, rfl, h1, h2⟩
    | cons b l1 =>
      rw [List.map_cons, List.cons_append] at h
      injection h with h1 h2
      obtain ⟨m1, x, m2, rfl, hm1, hx, hm2⟩ := ih l1 l2 y h2
      exact ⟨a :: m1, x, m2, rfl, by rw [List.map_cons, hm1, h1], hx, hm2⟩

/-- Claim C5: `aggregateLanguageSignals` discards, without error, every
signal whose value fails to normalize; it sums weights per normalized code
and returns the code whose total is highest, where every code seen earlier
has a strictly smaller total and every code seen later a total at most as
large (the first-seen code among equal maxima wins, as JS stable sort
guarantees); it returns null exactly when no signal normalizes. -/
theorem aggregate_weighted_first_max :
    (∀ signals : List Signal,
      aggregateLanguageSignals signals = none ↔
        ∀ s ∈ signals, normalizeLanguageCode s.value = none) ∧
    (∀ (xs ys : List Signal) (s : Signal), normalizeLanguageCode s.value = none →
      aggregateLanguageSignals (xs ++ s :: ys) = aggregateLanguageSignals (xs ++ ys)) ∧
    (∀ (signals : List Signal) (c : String),
      aggregateLanguageSignals signals = some c →
      ∃ cs1 cs2, firstSeenCodes signals = cs1 ++ c :: cs2 ∧
        (∀ c2 ∈ cs1, scoreOf signals c2 < scoreOf signals c) ∧
        (∀ c2 ∈ cs2, scoreOf signals c2 ≤ scoreOf signals c)) := by
  refine ⟨?_, ?_, ?_⟩
  · intro signals
    unfold aggregateLanguageSignals
    by_cases hs : signals = []
    · subst hs
      simp
    · rw [if_neg hs]
      dsimp only
      rw [buildScores_eq signals]
      cases hfsc : firstSeenCodes signals with
      | nil =>
        simp only [List.map_nil]
        simpa using (fsc_nil_iff signals).mp hfsc
      | cons c0 cs =>
        simp only [List.map_cons]
        constructor
        · intro h
          exact absurd h (by simp)
        · intro h
          have := (fsc_nil_iff signals).mpr h
          rw [hfsc] at this
          exact absurd this (by simp)
  · intro xs ys s hnorm
    unfold aggregateLanguageSignals
    have hfold : (xs ++ s :: ys).foldl addSignal [] = (xs ++ ys).foldl addSignal [] := by
      rw [List.foldl_append, List.foldl_cons, addSignal_none _ s hnorm,
        List.foldl_append]
    by_cases hxy : xs ++ ys = []
    · rcases List.append_eq_nil.mp hxy with ⟨rfl, rfl⟩
      simp only [List.nil_append, if_true]
      rw [show ([s] : List Signal).foldl addSignal [] = [] from by
        simp [List.foldl_cons, addSignal_none _ s hnorm]]
      simp
    · rw [if_neg (by simp), if_neg hxy, hfold]
  · intro signals c h
    unfold aggregateLanguageSignals at h
    by_cases hs : signals = []
    · rw [if_pos hs] at h
      exact absurd h (by simp)
    · rw [if_neg hs] at h
      dsimp only at h
      cases hsc : signals.foldl addSignal [] with
      | nil =>
        rw [hsc] at h
        exact absurd h (by simp)
      | cons e rest =>
        rw [hsc] at h
        simp only [Option.some.injEq] at h
        obtain ⟨l1, l2, hsplit, hlt, hle⟩ := pickTop_first_max e rest
        have hmap : (firstSeenCodes signals).map
            (fun c2 => (c2, scoreOf signals c2)) = l1 ++ pickTop e rest :: l2 := by
          rw [← buildScores_eq signals, hsc, hsplit]
        obtain ⟨m1, x, m2, hfsc, hm1, hx, hm2⟩ :=
          map_split (fun c2 => (c2, scoreOf signals c2)) _ l1 l2 (pickTop e rest) hmap
        have hx1 : x = c := by
          rw [← h, ← hx]
        have hx2 : (pickTop e rest).2 = scoreOf signals x := by
          rw [← hx]
        refine ⟨m1, m2, by rw [hfsc, hx1], ?_, ?_⟩
        · intro c2 hc2
          have hmem : (c2, scoreOf signals c2) ∈ l1 := by
            rw [← hm1]
            exact List.mem_map_of_mem _ hc2
          have hlt2 := hlt _ hmem
          rw [hx2] at hlt2
          rw [← hx1]
          exact hlt2
        · intro c2 hc2
          have hmem : (c2, scoreOf signals c2) ∈ l2 := by
            rw [← hm2]
            exact List.mem_map_of_mem _ hc2
          have hle2 := hle _ hmem
          rw [hx2] at hle2
          rw [← hx1]
          exact hle2

/-- Witness for C5 at a concrete signal list containing a non-normalizable
signal: the aggregated winner `ta` is first-seen-maximal. -/
theorem aggregate_weighted_first_max_witness :
    ∃ cs1 cs2,
      firstSeenCodes
          [⟨"html-lang", "en", 5⟩, ⟨"junk", "??", 99⟩, ⟨"body-text", "tamil", 15⟩] =
        cs1 ++ "ta" :: cs2 ∧
      (∀ c2 ∈ cs1,
        scoreOf [⟨"html-lang", "en", 5⟩, ⟨"junk", "??", 99⟩,
            ⟨"body-text", "tamil", 15⟩] c2 <
          scoreOf [⟨"html-lang", "en", 5⟩, ⟨"junk", "??", 99⟩,
            ⟨"body-text", "tamil", 15⟩] "ta") ∧
      (∀ c2 ∈ cs2,
        scoreOf [⟨"html-lang", "en", 5⟩, ⟨"junk", "??", 99⟩,
            ⟨"body-text", "tamil", 15⟩] c2 ≤
          scoreOf [⟨"html-lang", "en", 5⟩, ⟨"junk", "??", 99⟩,
            ⟨"body-text", "tamil", 15⟩] "ta") :=
  aggregate_weighted_first_max.2.2
    [⟨"html-lang", "en", 5⟩, ⟨"junk", "??", 99⟩, ⟨"body-text", "tamil", 15⟩] "ta"
    (by decide)
